import Mathlib

/-!
Verification of the zip-tree bounded-distance iterators
(`src/zip_tree_iterator.py`).

A zip tree is a recursive structure of seeds (opaque leaves), chains
(alternating lists of elements and gap distances) and snarls (lists of
chain entries, each a tuple of distances followed by a chain, closed by a
boundary-distance record).  The Python module defines four generators over
this structure:

* `zip_element_right_to_left_iterator` — seeds of an element right-to-left
  with their distance to the element's right end, bounded by `max_distance`;
* `zip_element_left_to_right_iterator` — all seeds left-to-right, each with
  its containment path (innermost container first, raw index inside each);
* `zip_reachable_iterator` — seeds reachable leftward/outward from a seed
  described by its containment path, bounded by `max_distance`;
* `zip_element_pairs_iterator` — the all-pairs composition of the previous
  two.

The Python data shapes are embedded as the inductive `ZipEl`:
a Python chain `[E0, d1, E1, ..., dk, Ek]` becomes
`ZipEl.chain E0 [(d1, E1), ..., (dk, Ek)]` (the alternation invariant of a
well-formed chain is baked into the shape; raw Python index `2*p`
corresponds to position `p`), and a Python snarl
`((ds_0, C_0), ..., (ds_{N-1}, C_{N-1}), bs)` becomes
`ZipEl.snarl [(ds_0, C_0), ...] bs`.  Seed payloads are `Nat`.

The generators are embedded as functions returning the full (finite) list
a caller would obtain by exhausting them.  The Python loops that walk a
list right-to-left carrying a running distance are embedded as
structurally recursive helpers (`...Go`) that first recurse on the tail
(the sub-elements to the right, which the Python loop visits first) and
then handle the head, threading the running distance and the
early-termination flag through the recursion.
-/

inductive ZipEl : Type where
  | seed (s : Nat) : ZipEl
  | chain (first : ZipEl) (rest : List (Int × ZipEl)) : ZipEl
  | snarl (entries : List (List Int × ZipEl)) (boundary : List Int) : ZipEl
deriving Repr

/-- A containment path: the flat Python list
`[container, index, container, index, ...]` (innermost container first)
embedded as a list of (container, raw index) pairs. -/
abbrev ZPath := List (ZipEl × Nat)

/-- The minimum distance added when stepping over an element inside a chain:
`nested_element[-1][0]` for a snarl (its boundary record's entry 0), nothing
otherwise (lines 73–75 and 187–189 of the source). -/
def crossDist : ZipEl → Int
  | .snarl _ bs => bs.headD 0
  | _ => 0

mutual
/-- `zip_element_right_to_left_iterator` (source lines 34–86): seeds of
`element` in right-to-left order paired with their min distance to the
element's right end; only distances `≤ max_distance` are produced. -/
def zip_element_right_to_left_iterator (element : ZipEl) (max_distance : Int) :
    List (Nat × Int) :=
  match element with
  | .seed s => [(s, 0)]
  | .chain first rest =>
      match rtlChainGo max_distance rest with
      | (out, dfr, stopped) =>
        if stopped then out
        else out ++ (zip_element_right_to_left_iterator first max_distance).filterMap
          (fun p => if p.2 + dfr ≤ max_distance then some (p.1, p.2 + dfr) else none)
  | .snarl entries bs => rtlSnarlGo max_distance entries (bs.drop 1)

/-- The chain loop of the right-to-left iterator (source lines 57–82),
walking the sub-elements of `rest` right-to-left (so the recursion on the
tail comes first).  Returns the seeds produced so far, the running
`distance_from_right_chain_end` after the walk, and whether the walk
terminated early (`distance_from_right_chain_end > max_distance`). -/
def rtlChainGo (max_distance : Int) (rest : List (Int × ZipEl)) :
    List (Nat × Int) × Int × Bool :=
  match rest with
  | [] => ([], 0, false)
  | (d, e) :: rst =>
      match rtlChainGo max_distance rst with
      | (out, dfr, stopped) =>
        if stopped then (out, dfr, true)
        else
          let out2 := out ++ (zip_element_right_to_left_iterator e max_distance).filterMap
            (fun p => if p.2 + dfr ≤ max_distance then some (p.1, p.2 + dfr) else none)
          let dfr2 := dfr + crossDist e + d
          (out2, dfr2, decide (max_distance < dfr2))

/-- The snarl loop of the right-to-left iterator (source lines 42–55):
chain entries are visited from the last to the first, each nested distance
increased by the matching boundary-record entry (`element[-1][i+1]`, here
the head of `bs`, which starts as `boundary.drop 1`). -/
def rtlSnarlGo (max_distance : Int) (entries : List (List Int × ZipEl))
    (bs : List Int) : List (Nat × Int) :=
  match entries with
  | [] => []
  | (_, e) :: rst =>
      rtlSnarlGo max_distance rst (bs.drop 1) ++
        (zip_element_right_to_left_iterator e max_distance).filterMap
          (fun p => if p.2 + bs.headD 0 ≤ max_distance
                    then some (p.1, p.2 + bs.headD 0) else none)
end

mutual
/-- `zip_element_left_to_right_iterator` (source lines 89–122): all seeds of
`element` in left-to-right order, each with its containment path
(`contained_elements + [element, i]` appended at each level, so the
innermost container comes first). -/
def zip_element_left_to_right_iterator (element : ZipEl) : List (Nat × ZPath) :=
  match element with
  | .seed s => [(s, [])]
  | .chain first rest =>
      (zip_element_left_to_right_iterator first).map
        (fun p => (p.1, p.2 ++ [(ZipEl.chain first rest, 0)])) ++
        ltrChainGo (ZipEl.chain first rest) 2 rest
  | .snarl entries bs => ltrSnarlGo (ZipEl.snarl entries bs) 0 entries

/-- The chain loop of the left-to-right iterator (source lines 111–118):
sub-elements left-to-right, recording the raw index `i` (stepping by 2)
of each sub-element within `self`. -/
def ltrChainGo (self : ZipEl) (i : Nat) (l : List (Int × ZipEl)) :
    List (Nat × ZPath) :=
  match l with
  | [] => []
  | (_, e) :: rst =>
      (zip_element_left_to_right_iterator e).map (fun p => (p.1, p.2 ++ [(self, i)])) ++
        ltrChainGo self (i + 2) rst

/-- The snarl loop of the left-to-right iterator (source lines 97–108):
chain entries left-to-right, recording the entry index `i` within `self`. -/
def ltrSnarlGo (self : ZipEl) (i : Nat) (l : List (List Int × ZipEl)) :
    List (Nat × ZPath) :=
  match l with
  | [] => []
  | (_, e) :: rst =>
      (zip_element_left_to_right_iterator e).map (fun p => (p.1, p.2 ++ [(self, i)])) ++
        ltrSnarlGo self (i + 1) rst
end

/-- The preceding-chains loop of the snarl branch of `zip_reachable_iterator`
(source lines 144–155): the chain entries strictly before the one holding
the seed, visited from the nearest to the first, the nested distance
increased by `element[j][k+1]` (here the head of `js`, which starts as the
seed's entry's distances with the first dropped) and by the accumulated
`distance_from_right`. -/
def reachSnarlGo (max_distance dfr : Int) (entries : List (List Int × ZipEl))
    (js : List Int) : List (Nat × Int) :=
  match entries with
  | [] => []
  | (_, e) :: rst =>
      reachSnarlGo max_distance dfr rst (js.drop 1) ++
        (zip_element_right_to_left_iterator e max_distance).filterMap
          (fun p => if p.2 + js.headD 0 + dfr ≤ max_distance
                    then some (p.1, p.2 + js.headD 0 + dfr) else none)

/-- The preceding-sub-elements loop of the chain branch of
`zip_reachable_iterator` (source lines 169–193).  Each item pairs the
distance token `element[k+1]` with the sub-element `element[k]`; the loop
first adds the distance token (stopping the whole walk if the running
distance exceeds the bound), then produces the nested seeds, then adds the
minimum crossing distance of the sub-element (stopping again if the bound
is exceeded).  Items are listed left-to-right, so the recursion on the tail
(the items the Python loop visits first) comes first. -/
def reachChainGo (max_distance : Int) (items : List (Int × ZipEl)) (dfr : Int) :
    List (Nat × Int) × Int × Bool :=
  match items with
  | [] => ([], dfr, false)
  | (g, e) :: rst =>
      match reachChainGo max_distance rst dfr with
      | (out, dfr1, stopped) =>
        if stopped then (out, dfr1, true)
        else
          let dfr2 := dfr1 + g
          if max_distance < dfr2 then (out, dfr2, true)
          else
            let out2 := out ++ (zip_element_right_to_left_iterator e max_distance).filterMap
              (fun p => if p.2 + dfr2 ≤ max_distance then some (p.1, p.2 + dfr2) else none)
            let dfr3 := dfr2 + crossDist e
            (out2, dfr3, decide (max_distance < dfr3))

/-- The items handed to `reachChainGo` for a seed at position `c` (raw index
`2*c`) of the chain `first :: rest`: for `k' = 0, …, c-1` the pair of the
distance token between positions `k'` and `k'+1` (`element[2k'+1]`, i.e.
`rest[k'].1`) and the sub-element at position `k'`. -/
def chainPre (first : ZipEl) (rest : List (Int × ZipEl)) (c : Nat) :
    List (Int × ZipEl) :=
  List.zip ((rest.take c).map Prod.fst) (first :: rest.map Prod.snd)

/-- The main loop of `zip_reachable_iterator` (source lines 135–193) over
the containment path, threading the accumulated `distance_from_right` and
the stop flag.  A seed container cannot occur on a well-formed path (the
source asserts it is a chain); it is embedded as an immediate stop. -/
def reachGo (max_distance : Int) (path : ZPath) (dfr : Int) :
    List (Nat × Int) × Int × Bool :=
  match path with
  | [] => ([], dfr, false)
  | (el, j) :: rest =>
      match el with
      | .seed _ => ([], dfr, true)
      | .snarl entries _ =>
          let ds := (entries.getD j ([], .seed 0)).1
          let out := reachSnarlGo max_distance dfr (entries.take j) (ds.drop 1)
          let dfr1 := dfr + ds.headD 0
          if max_distance < dfr1 then (out, dfr1, true)
          else
            match reachGo max_distance rest dfr1 with
            | (out2, dfr2, st) => (out ++ out2, dfr2, st)
      | .chain first restL =>
          match reachChainGo max_distance (chainPre first restL (j / 2)) dfr with
          | (out, dfr1, stopped) =>
            if stopped then (out, dfr1, true)
            else
              match reachGo max_distance rest dfr1 with
              | (out2, dfr2, st) => (out ++ out2, dfr2, st)

/-- `zip_reachable_iterator` (source lines 125–193): seeds reachable from
the seed described by `contained_elements`, with their distances from it. -/
def zip_reachable_iterator (contained_elements : ZPath) (max_distance : Int) :
    List (Nat × Int) :=
  (reachGo max_distance contained_elements 0).1

/-- `zip_element_pairs_iterator` (source lines 196–205): for each seed
left-to-right, each seed reachable from it with the distance. -/
def zip_element_pairs_iterator (zip_tree : ZipEl) (max_distance : Int) :
    List (Nat × Nat × Int) :=
  (zip_element_left_to_right_iterator zip_tree).flatMap
    (fun p => (zip_reachable_iterator p.2 max_distance).map (fun q => (p.1, q.1, q.2)))

/-! ## Well-formedness

The structural invariants of §3 of the design (and of the grammar in the
source's docstring): distances are non-negative, a chain's sub-elements are
seeds or snarls, a snarl's chain entry `i` carries `i+1` distances and a
chain, and its boundary record carries `N+1` distances. -/

/-- Shape of a legal chain sub-element (`element -> seed | snarl`). -/
def chainItemShape : ZipEl → Bool
  | .chain _ _ => false
  | _ => true

/-- Shape of a legal snarl chain entry element (`chains -> ( ... chain )`). -/
def chainShape : ZipEl → Bool
  | .chain _ _ => true
  | _ => false

mutual
/-- Well-formedness of an element (§3 of the design). -/
def wf : ZipEl → Bool
  | .seed _ => true
  | .chain first rest => chainItemShape first && wf first && wfRest rest
  | .snarl entries bs =>
      decide (bs.length = entries.length + 1) && bs.all (fun d => decide (0 ≤ d)) &&
        wfEntries entries 1

/-- Well-formedness of the tail of a chain: non-negative gaps, legal
sub-element shapes, recursively well-formed sub-elements. -/
def wfRest : List (Int × ZipEl) → Bool
  | [] => true
  | (d, e) :: r => decide (0 ≤ d) && chainItemShape e && wf e && wfRest r

/-- Well-formedness of a snarl's chain entries, the `k`-th checked entry
carrying exactly `k` distances (so entry `i` carries `i+1` of them), all
non-negative, with a well-formed chain. -/
def wfEntries : List (List Int × ZipEl) → Nat → Bool
  | [], _ => true
  | (ds, e) :: r, k =>
      decide (ds.length = k) && ds.all (fun d => decide (0 ≤ d)) && chainShape e &&
        wf e && wfEntries r (k + 1)
end

/-! ## The example tree of the source (seeds `"a"`–`"j"` as `0`–`9`) -/

def exSnarl1 : ZipEl := .snarl [([1], .chain (.seed 1) [])] [1, 0]
def exSnarl3 : ZipEl := .snarl [([2], .chain (.seed 5) [])] [3, 0]
def exChainE : ZipEl := .chain (.seed 4) [(4, exSnarl3), (6, .seed 6)]
def exSnarl2 : ZipEl := .snarl [([2], exChainE), ([4, 2], .chain (.seed 7) [])] [1, 2, 1]

/-- The example `zip_tree` of the source (lines 30–31). -/
def exTree : ZipEl :=
  .chain (.seed 0)
    [(5, exSnarl1), (10, .seed 2), (4, .seed 3), (3, exSnarl2), (7, .seed 8), (2, .seed 9)]

/-! ## Distance semantics

The distances the tree encodes (§3 of the design), written directly from
the data-model description and independent of the traversal order,
early-termination and bound-filtering logic of the iterators:

* `distsToRight e` — for every seed of `e` in left-to-right order, its
  minimum distance to the right end of `e`: zero for a seed itself; inside
  a chain, the seed's distance within its sub-element plus the gap tokens
  and minimum crossing distances of everything to its right; inside a
  snarl, the seed's distance within its chain entry plus the boundary
  record's entry `i+1` (right boundary to the right side of chain `i`).

* `ltrSem e` — for every seed of `e` in left-to-right order, the triple of
  its payload, the list of all seeds preceding it in `e` (in right-to-left
  order, i.e. nearest first) paired with the encoded distance between the
  two seeds, and its minimum distance to the left end of `e`.  A preceding
  seed in the same container contributes, at a chain, the left seed's
  distance to its sub-element's right side plus the intervening gap tokens
  and crossing distances plus the right seed's distance to its
  sub-element's left side, and, at a snarl, the left seed's distance to its
  chain's right side plus the entry distance `ds_j[k+1]` (left side of
  chain `j` to right side of chain `k`) plus the right seed's distance to
  its chain's left side. -/

/-- Shift every recorded distance by `off`. -/
def shiftD (off : Int) (l : List (Nat × Int)) : List (Nat × Int) :=
  l.map (fun p => (p.1, p.2 + off))

mutual
/-- The payloads of the seeds of an element, left-to-right. -/
def seedsOf : ZipEl → List Nat
  | .seed s => [s]
  | .chain first rest => seedsOf first ++ seedsOfRest rest
  | .snarl entries _ => seedsOfEntries entries

def seedsOfRest : List (Int × ZipEl) → List Nat
  | [] => []
  | (_, e) :: r => seedsOf e ++ seedsOfRest r

def seedsOfEntries : List (List Int × ZipEl) → List Nat
  | [] => []
  | (_, e) :: r => seedsOf e ++ seedsOfEntries r
end

mutual
/-- Every seed of the element, left-to-right, with its encoded distance to
the element's right end. -/
def distsToRight : ZipEl → List (Nat × Int)
  | .seed s => [(s, 0)]
  | .chain first rest =>
      match dtrChain rest with
      | (l, off) => shiftD off (distsToRight first) ++ l
  | .snarl entries bs => dtrSnarl entries (bs.drop 1)

/-- Distances to the right end of a chain for the seeds of its tail
positions, together with the distance from the right side of the position
just before the tail to the chain's right end (the sum of the tail's gap
tokens and crossing distances). -/
def dtrChain : List (Int × ZipEl) → List (Nat × Int) × Int
  | [] => ([], 0)
  | (d, e) :: rst =>
      match dtrChain rst with
      | (l, off) => (shiftD off (distsToRight e) ++ l, off + crossDist e + d)

/-- Distances to a snarl's right boundary: each entry's seeds shifted by
the matching boundary-record entry (head of `bs`, starting from
`boundary.drop 1`). -/
def dtrSnarl : List (List Int × ZipEl) → List Int → List (Nat × Int)
  | [], _ => []
  | (_, e) :: rst, bs => shiftD (bs.headD 0) (distsToRight e) ++ dtrSnarl rst (bs.drop 1)
end

/-- The seeds of the chain entries strictly before a given snarl entry, in
right-to-left order, each with its distance to the right side of its own
entry's chain increased by the matching distance of the given entry's
record (head of `js`, starting from the record with its first distance
dropped, so entry `k` pairs with `ds_j[k+1]`). -/
def snarlBehind : List (List Int × ZipEl) → List Int → List (Nat × Int)
  | [], _ => []
  | (_, e) :: rst, js =>
      snarlBehind rst (js.drop 1) ++ shiftD (js.headD 0) (distsToRight e).reverse

mutual
/-- For every seed of the element, left-to-right: its payload, the
preceding seeds of the element (right-to-left) with the encoded
seed-to-seed distances, and its encoded distance to the element's left
end. -/
def ltrSem : ZipEl → List (Nat × List (Nat × Int) × Int)
  | .seed s => [(s, [], 0)]
  | .chain first rest => ltrSemChainGo [] 0 first rest
  | .snarl entries _ => ltrSemSnarlGo [] entries
termination_by e => sizeOf e
decreasing_by all_goals (simp_wf <;> omega)

/-- Walk a chain's positions left-to-right.  `behind` holds the seeds of
the positions already passed (right-to-left) with their distances to the
left side of the current position; `off` is the distance from the chain's
left end to the left side of the current position.  Passing a position
shifts `behind` by the next gap token and the passed element's crossing
distance and adds the passed element's seeds (right-to-left, at the gap
token alone). -/
def ltrSemChainGo (behind : List (Nat × Int)) (off : Int) (cur : ZipEl)
    (rest : List (Int × ZipEl)) : List (Nat × List (Nat × Int) × Int) :=
  match rest with
  | [] =>
      (ltrSem cur).map (fun q => (q.1, q.2.1 ++ shiftD q.2.2 behind, q.2.2 + off))
  | (d, e) :: rst =>
      (ltrSem cur).map (fun q => (q.1, q.2.1 ++ shiftD q.2.2 behind, q.2.2 + off)) ++
        ltrSemChainGo
          (shiftD d (distsToRight cur).reverse ++ shiftD (d + crossDist cur) behind)
          (off + crossDist cur + d) e rst
termination_by sizeOf cur + sizeOf rest
decreasing_by all_goals (simp_wf <;> omega)

/-- Walk a snarl's chain entries left-to-right; `prev` holds the entries
already passed.  A seed of the current entry sees the passed entries'
seeds through `snarlBehind` shifted by its distance to its own chain's
left side, and its distance to the snarl's left end is that distance plus
the entry's first record distance (left side of the chain to the left
boundary). -/
def ltrSemSnarlGo (prev : List (List Int × ZipEl)) (l : List (List Int × ZipEl)) :
    List (Nat × List (Nat × Int) × Int) :=
  match l with
  | [] => []
  | (ds, e) :: rst =>
      (ltrSem e).map
        (fun q => (q.1, q.2.1 ++ shiftD q.2.2 (snarlBehind prev (ds.drop 1)),
                   q.2.2 + ds.headD 0)) ++
        ltrSemSnarlGo (prev ++ [(ds, e)]) rst
termination_by sizeOf l
decreasing_by all_goals (simp_wf <;> omega)
end

/-- The encoded distance between the `m`-th and the `n`-th seed of the tree
(0-indexed, left-to-right), read off the semantic enumeration: among the
`n` seeds preceding seed `n` (nearest first), seed `m` is the
`(n-1-m)`-th. -/
def seedDist (t : ZipEl) (m n : Nat) : Int :=
  ((((ltrSem t).getD n (0, [], 0)).2.1).getD (n - 1 - m) (0, 0)).2

/-! ## Helper lemmas -/

/-- Keep the records whose distance is within the bound. -/
def keepLe (m : Int) (l : List (Nat × Int)) : List (Nat × Int) :=
  l.filter (fun r => decide (r.2 ≤ m))

/-- The bounded shift-and-filter step that every emission loop of the
source performs on a nested iterator's output. -/
def emitD (m off : Int) (l : List (Nat × Int)) : List (Nat × Int) :=
  l.filterMap (fun p => if p.2 + off ≤ m then some (p.1, p.2 + off) else none)

theorem fst_comp_keep {α β γ : Type} (g : α × β → γ) :
    (Prod.fst ∘ fun p => ((p : α × β).1, g p)) = Prod.fst := by
  funext p; rfl

theorem shiftD_zero (l : List (Nat × Int)) : shiftD 0 l = l := by
  simp [shiftD]

theorem shiftD_append (off : Int) (l₁ l₂ : List (Nat × Int)) :
    shiftD off (l₁ ++ l₂) = shiftD off l₁ ++ shiftD off l₂ := by
  simp [shiftD]

theorem shiftD_shiftD (a b : Int) (l : List (Nat × Int)) :
    shiftD a (shiftD b l) = shiftD (b + a) l := by
  simp [shiftD, Int.add_assoc]

theorem shiftD_reverse (off : Int) (l : List (Nat × Int)) :
    shiftD off l.reverse = (shiftD off l).reverse := by
  simp [shiftD]

theorem fst_shiftD (off : Int) (l : List (Nat × Int)) :
    (shiftD off l).map Prod.fst = l.map Prod.fst := by
  simp [shiftD, fst_comp_keep]

theorem keepLe_append (m : Int) (l₁ l₂ : List (Nat × Int)) :
    keepLe m (l₁ ++ l₂) = keepLe m l₁ ++ keepLe m l₂ := by
  simp [keepLe]

theorem keepLe_reverse (m : Int) (l : List (Nat × Int)) :
    keepLe m l.reverse = (keepLe m l).reverse := by
  simp [keepLe]

theorem mem_keepLe {m : Int} {l : List (Nat × Int)} {p : Nat × Int} :
    p ∈ keepLe m l ↔ p ∈ l ∧ p.2 ≤ m := by
  simp [keepLe]

/-- A wholly out-of-range shifted block filters to nothing. -/
theorem keepLe_shiftD_nil {m off : Int} {l : List (Nat × Int)}
    (hl : ∀ r ∈ l, 0 ≤ r.2) (hoff : m < off) : keepLe m (shiftD off l) = [] := by
  rw [List.eq_nil_iff_forall_not_mem]
  intro p hp
  rcases mem_keepLe.1 hp with ⟨hmem, hle⟩
  rcases List.mem_map.1 hmem with ⟨q, hq, rfl⟩
  have := hl q hq
  simp only at hle
  omega

theorem emitD_append (m off : Int) (l₁ l₂ : List (Nat × Int)) :
    emitD m off (l₁ ++ l₂) = emitD m off l₁ ++ emitD m off l₂ := by
  simp [emitD]

theorem emitD_reverse (m off : Int) (l : List (Nat × Int)) :
    emitD m off l.reverse = (emitD m off l).reverse := by
  simp [emitD]

/-- Shifting an already-filtered list and re-filtering is the same as
filtering the shifted list, provided the shift is non-negative (an entry
beyond the bound stays beyond it). -/
theorem emitD_keepLe (m off : Int) (hoff : 0 ≤ off) (l : List (Nat × Int)) :
    emitD m off (keepLe m l) = keepLe m (shiftD off l) := by
  induction l with
  | nil => rfl
  | cons a t ih =>
      by_cases h1 : a.2 + off ≤ m
      · have h2 : a.2 ≤ m := by omega
        simp [emitD, keepLe, shiftD, h1, h2] at ih ⊢
        simpa [emitD, keepLe, shiftD] using ih
      · by_cases h2 : a.2 ≤ m
        · simp [emitD, keepLe, shiftD, h1, h2] at ih ⊢
          simpa [emitD, keepLe, shiftD] using ih
        · have h1' : ¬ (a.2 + off ≤ m) := by omega
          simp [emitD, keepLe, shiftD, h1', h2] at ih ⊢
          simpa [emitD, keepLe, shiftD] using ih

theorem fst_keepLe_sub (m : Int) (l : List (Nat × Int)) {x : Nat}
    (hx : x ∈ (keepLe m l).map Prod.fst) : x ∈ l.map Prod.fst := by
  rcases List.mem_map.1 hx with ⟨p, hp, rfl⟩
  exact List.mem_map.2 ⟨p, (mem_keepLe.1 hp).1, rfl⟩

/-! ## Well-formedness extraction -/

theorem wf_chain_iff {f : ZipEl} {r : List (Int × ZipEl)} :
    wf (.chain f r) = true ↔
      chainItemShape f = true ∧ wf f = true ∧ wfRest r = true := by
  simp [wf, Bool.and_eq_true, and_assoc]

theorem wfRest_cons_iff {d : Int} {e : ZipEl} {r : List (Int × ZipEl)} :
    wfRest ((d, e) :: r) = true ↔
      0 ≤ d ∧ chainItemShape e = true ∧ wf e = true ∧ wfRest r = true := by
  simp [wfRest, Bool.and_eq_true, and_assoc]

theorem wf_snarl_iff {es : List (List Int × ZipEl)} {bs : List Int} :
    wf (.snarl es bs) = true ↔
      bs.length = es.length + 1 ∧ (∀ b ∈ bs, 0 ≤ b) ∧ wfEntries es 1 = true := by
  simp [wf, Bool.and_eq_true, and_assoc, List.all_eq_true]

theorem wfEntries_cons_iff {ds : List Int} {e : ZipEl} {r : List (List Int × ZipEl)}
    {k : Nat} :
    wfEntries ((ds, e) :: r) k = true ↔
      ds.length = k ∧ (∀ x ∈ ds, 0 ≤ x) ∧ chainShape e = true ∧ wf e = true ∧
        wfEntries r (k + 1) = true := by
  simp [wfEntries, Bool.and_eq_true, and_assoc, List.all_eq_true]

theorem crossDist_nonneg {e : ZipEl} (h : wf e = true) : 0 ≤ crossDist e := by
  match e with
  | .seed s => simp [crossDist]
  | .chain f r => simp [crossDist]
  | .snarl es bs =>
      rcases wf_snarl_iff.1 h with ⟨-, hbs, -⟩
      match bs with
      | [] => simp [crossDist]
      | b :: bt => exact hbs b (List.mem_cons_self b bt)

theorem wfRest_mem {l : List (Int × ZipEl)} (h : wfRest l = true) {d : Int} {e : ZipEl}
    (hm : (d, e) ∈ l) : 0 ≤ d ∧ wf e = true := by
  induction l with
  | nil => cases hm
  | cons a t ih =>
      match a with
      | (d', e') =>
        rcases wfRest_cons_iff.1 h with ⟨h1, -, h3, h4⟩
        rcases List.mem_cons.1 hm with heq | hmem
        · cases heq; exact ⟨h1, h3⟩
        · exact ih h4 hmem

theorem wfEntries_mem {l : List (List Int × ZipEl)} {k : Nat}
    (h : wfEntries l k = true) {ds : List Int} {e : ZipEl} (hm : (ds, e) ∈ l) :
    wf e = true ∧ ∀ x ∈ ds, 0 ≤ x := by
  induction l generalizing k with
  | nil => cases hm
  | cons a t ih =>
      match a with
      | (ds', e') =>
        rcases wfEntries_cons_iff.1 h with ⟨-, h2, -, h4, h5⟩
        rcases List.mem_cons.1 hm with heq | hmem
        · cases heq; exact ⟨h4, h2⟩
        · exact ih h5 hmem

/-! ## Non-negativity of the encoded distances -/

mutual
theorem dtr_nonneg (e : ZipEl) (h : wf e = true) :
    ∀ p ∈ distsToRight e, 0 ≤ p.2 := by
  match e with
  | .seed s => intro p hp; simp [distsToRight] at hp; simp [hp]
  | .chain first rest =>
      rcases wf_chain_iff.1 h with ⟨-, h1, h2⟩
      intro p hp
      have hrec := dtrChain_nonneg rest h2
      simp only [distsToRight] at hp
      rcases hq : dtrChain rest with ⟨l, off⟩
      rw [hq] at hp hrec
      simp only at hp hrec
      rcases List.mem_append.1 hp with hin | hin
      · rcases List.mem_map.1 hin with ⟨q, hq2, rfl⟩
        have := dtr_nonneg first h1 q hq2
        simp only
        have := hrec.2
        omega
      · exact hrec.1 p hin
  | .snarl entries bs =>
      rcases wf_snarl_iff.1 h with ⟨-, hbs, hes⟩
      intro p hp
      exact dtrSnarl_nonneg entries 1 hes (bs.drop 1)
        (fun b hb => hbs b (List.mem_of_mem_drop hb)) p hp

theorem dtrChain_nonneg (l : List (Int × ZipEl)) (h : wfRest l = true) :
    (∀ p ∈ (dtrChain l).1, 0 ≤ p.2) ∧ 0 ≤ (dtrChain l).2 := by
  match l with
  | [] => simp [dtrChain]
  | (d, e) :: rst =>
      rcases wfRest_cons_iff.1 h with ⟨h1, -, h3, h4⟩
      have hrec := dtrChain_nonneg rst h4
      have hcross := crossDist_nonneg h3
      simp only [dtrChain]
      rcases hq : dtrChain rst with ⟨lr, off⟩
      rw [hq] at hrec
      simp only at hrec ⊢
      constructor
      · intro p hp
        rcases List.mem_append.1 hp with hin | hin
        · rcases List.mem_map.1 hin with ⟨q, hq2, rfl⟩
          have := dtr_nonneg e h3 q hq2
          have := hrec.2
          simp only
          omega
        · exact hrec.1 p hin
      · have := hrec.2; omega

theorem dtrSnarl_nonneg (l : List (List Int × ZipEl)) (k : Nat)
    (h : wfEntries l k = true) (bs : List Int) (hbs : ∀ b ∈ bs, 0 ≤ b) :
    ∀ p ∈ dtrSnarl l bs, 0 ≤ p.2 := by
  match l with
  | [] => intro p hp; simp [dtrSnarl] at hp
  | (ds, e) :: rst =>
      rcases wfEntries_cons_iff.1 h with ⟨-, -, -, h4, h5⟩
      intro p hp
      simp only [dtrSnarl] at hp
      rcases List.mem_append.1 hp with hin | hin
      · rcases List.mem_map.1 hin with ⟨q, hq2, rfl⟩
        have := dtr_nonneg e h4 q hq2
        have hhead : 0 ≤ bs.headD 0 := by
          match bs with
          | [] => simp
          | b :: bt => exact hbs b (List.mem_cons_self b bt)
        simp only
        omega
      · exact dtrSnarl_nonneg rst (k + 1) h5 (bs.drop 1)
          (fun b hb => hbs b (List.mem_of_mem_drop hb)) p hin
end

/-! ## Correctness of the right-to-left iterator

For a well-formed element and a non-negative bound, the right-to-left
iterator produces exactly the encoded distances-to-the-right-end, in
reverse (right-to-left) seed order, restricted to the bound: the chain
early-termination drops only seeds whose distance already exceeds the
bound. -/

theorem emitD_eq_filterMap (m off : Int) (l : List (Nat × Int)) :
    (l.filterMap (fun p => if p.2 + off ≤ m then some (p.1, p.2 + off) else none)) =
      emitD m off l := rfl

mutual
theorem rtl_eq (e : ZipEl) (h : wf e = true) (m : Int) (hm : 0 ≤ m) :
    zip_element_right_to_left_iterator e m = (keepLe m (distsToRight e)).reverse := by
  match e with
  | .seed s =>
      simp [zip_element_right_to_left_iterator, distsToRight, keepLe, hm]
  | .chain first rest =>
      rcases wf_chain_iff.1 h with ⟨-, h1, h2⟩
      have hgo := rtlChainGo_eq rest h2 m hm
      have hnn := dtr_nonneg first h1
      have hoffnn := (dtrChain_nonneg rest h2).2
      simp only [zip_element_right_to_left_iterator, distsToRight]
      rcases hq : rtlChainGo m rest with ⟨out, dfr, stopped⟩
      rcases hd : dtrChain rest with ⟨lsem, off⟩
      rw [hq, hd] at hgo
      rw [hd] at hoffnn
      simp only at hgo hoffnn ⊢
      rcases hgo with ⟨hout, hdnn, hdle, hstop, hcont⟩
      rw [keepLe_append, List.reverse_append]
      match stopped with
      | true =>
          have h1' : m < dfr := hstop rfl
          have : keepLe m (shiftD off (distsToRight first)) = [] :=
            keepLe_shiftD_nil hnn (by omega)
          simp [this, hout]
      | false =>
          have hde : dfr = off := hcont rfl
          simp only [Bool.false_eq_true, if_false]
          rw [hout, emitD_eq_filterMap, rtl_eq first h1 m hm, emitD_reverse,
            emitD_keepLe m dfr hdnn, hde]
  | .snarl entries bs =>
      rcases wf_snarl_iff.1 h with ⟨-, hbs, hes⟩
      simp only [zip_element_right_to_left_iterator, distsToRight]
      exact rtlSnarlGo_eq entries 1 hes (bs.drop 1)
        (fun b hb => hbs b (List.mem_of_mem_drop hb)) m hm

theorem rtlChainGo_eq (l : List (Int × ZipEl)) (h : wfRest l = true) (m : Int)
    (hm : 0 ≤ m) :
    (rtlChainGo m l).1 = (keepLe m (dtrChain l).1).reverse ∧
      0 ≤ (rtlChainGo m l).2.1 ∧
      (rtlChainGo m l).2.1 ≤ (dtrChain l).2 ∧
      ((rtlChainGo m l).2.2 = true → m < (rtlChainGo m l).2.1) ∧
      ((rtlChainGo m l).2.2 = false → (rtlChainGo m l).2.1 = (dtrChain l).2) := by
  match l with
  | [] => simp [rtlChainGo, dtrChain, keepLe]
  | (d, e) :: rst =>
      rcases wfRest_cons_iff.1 h with ⟨hd, -, hwe, hr⟩
      have hgo := rtlChainGo_eq rst hr m hm
      have hnn := dtr_nonneg e hwe
      have hcross := crossDist_nonneg hwe
      have hoffnn := (dtrChain_nonneg rst hr).2
      simp only [rtlChainGo, dtrChain]
      rcases hq : rtlChainGo m rst with ⟨out, dfr, stopped⟩
      rcases hdt : dtrChain rst with ⟨lsem, off⟩
      rw [hq, hdt] at hgo
      rw [hdt] at hoffnn
      simp only at hgo hoffnn ⊢
      rcases hgo with ⟨hout, hdnn, hdle, hstop, hcont⟩
      rw [keepLe_append, List.reverse_append]
      match stopped with
      | true =>
          have h1' : m < dfr := hstop rfl
          have hnil : keepLe m (shiftD off (distsToRight e)) = [] :=
            keepLe_shiftD_nil hnn (by omega)
          simp only [if_pos]
          refine ⟨by simp [hnil, hout], hdnn, by omega, fun _ => h1', by simp⟩
      | false =>
          have hde : dfr = off := hcont rfl
          simp only [Bool.false_eq_true, if_false]
          refine ⟨?_, by omega, by omega, ?_, ?_⟩
          · rw [hout, emitD_eq_filterMap, rtl_eq e hwe m hm, emitD_reverse,
              emitD_keepLe m dfr hdnn, hde]
          · intro hflag
            have := of_decide_eq_true hflag
            omega
          · intro hflag
            have := of_decide_eq_false hflag
            omega

theorem rtlSnarlGo_eq (l : List (List Int × ZipEl)) (k : Nat)
    (h : wfEntries l k = true) (bs : List Int) (hbs : ∀ b ∈ bs, 0 ≤ b) (m : Int)
    (hm : 0 ≤ m) :
    rtlSnarlGo m l bs = (keepLe m (dtrSnarl l bs)).reverse := by
  match l with
  | [] => simp [rtlSnarlGo, dtrSnarl, keepLe]
  | (ds, e) :: rst =>
      rcases wfEntries_cons_iff.1 h with ⟨-, -, -, hwe, hr⟩
      have hhead : 0 ≤ bs.headD 0 := by
        match bs with
        | [] => simp
        | b :: bt => exact hbs b (List.mem_cons_self b bt)
      simp only [rtlSnarlGo, dtrSnarl]
      rw [keepLe_append, List.reverse_append,
        rtlSnarlGo_eq rst (k + 1) hr (bs.drop 1)
          (fun b hb => hbs b (List.mem_of_mem_drop hb)) m hm,
        emitD_eq_filterMap, rtl_eq e hwe m hm, emitD_reverse,
        emitD_keepLe m (bs.headD 0) hhead]
end

/-! ## Reach-walker infrastructure -/

theorem mem_emitD {m off : Int} {l : List (Nat × Int)} {p : Nat × Int} :
    p ∈ emitD m off l ↔ ∃ q ∈ l, q.2 + off ≤ m ∧ p = (q.1, q.2 + off) := by
  simp only [emitD, List.mem_filterMap]
  constructor
  · rintro ⟨q, hq, hf⟩
    by_cases hc : q.2 + off ≤ m
    · rw [if_pos hc] at hf
      exact ⟨q, hq, hc, (Option.some_inj.1 hf).symm⟩
    · rw [if_neg hc] at hf; cases hf
  · rintro ⟨q, hq, hc, rfl⟩
    exact ⟨q, hq, by rw [if_pos hc]⟩

theorem emitD_eq_filterMap2 (m b c : Int) (l : List (Nat × Int)) :
    (l.filterMap (fun p => if p.2 + b + c ≤ m then some (p.1, p.2 + b + c) else none)) =
      emitD m (b + c) l := by
  simp only [emitD, Int.add_assoc]

mutual
theorem rtl_nonneg (e : ZipEl) (h : wf e = true) (m : Int) :
    ∀ p ∈ zip_element_right_to_left_iterator e m, 0 ≤ p.2 := by
  match e with
  | .seed s => intro p hp; simp [zip_element_right_to_left_iterator] at hp; simp [hp]
  | .chain first rest =>
      rcases wf_chain_iff.1 h with ⟨-, h1, h2⟩
      have hgo := rtlChainGo_nonneg rest h2 m
      intro p hp
      simp only [zip_element_right_to_left_iterator] at hp
      rcases hq : rtlChainGo m rest with ⟨out, dfr, stopped⟩
      rw [hq] at hp hgo
      simp only at hp hgo
      match stopped with
      | true => simp only [if_pos] at hp; exact hgo.1 p hp
      | false =>
          simp only [Bool.false_eq_true, if_false] at hp
          rcases List.mem_append.1 hp with hin | hin
          · exact hgo.1 p hin
          · rw [emitD_eq_filterMap] at hin
            rcases mem_emitD.1 hin with ⟨q, hq2, -, rfl⟩
            have := rtl_nonneg first h1 m q hq2
            have := hgo.2
            simp only
            omega
  | .snarl entries bs =>
      rcases wf_snarl_iff.1 h with ⟨-, hbs, hes⟩
      intro p hp
      simp only [zip_element_right_to_left_iterator] at hp
      exact rtlSnarlGo_nonneg entries 1 hes (bs.drop 1)
        (fun b hb => hbs b (List.mem_of_mem_drop hb)) m p hp

theorem rtlChainGo_nonneg (l : List (Int × ZipEl)) (h : wfRest l = true) (m : Int) :
    (∀ p ∈ (rtlChainGo m l).1, 0 ≤ p.2) ∧ 0 ≤ (rtlChainGo m l).2.1 := by
  match l with
  | [] => simp [rtlChainGo]
  | (d, e) :: rst =>
      rcases wfRest_cons_iff.1 h with ⟨hd, -, hwe, hr⟩
      have hgo := rtlChainGo_nonneg rst hr m
      have hcross := crossDist_nonneg hwe
      simp only [rtlChainGo]
      rcases hq : rtlChainGo m rst with ⟨out, dfr, stopped⟩
      rw [hq] at hgo
      simp only at hgo ⊢
      match stopped with
      | true => simp only [if_pos]; exact hgo
      | false =>
          simp only [Bool.false_eq_true, if_false]
          refine ⟨?_, by omega⟩
          intro p hp
          rcases List.mem_append.1 hp with hin | hin
          · exact hgo.1 p hin
          · rw [emitD_eq_filterMap] at hin
            rcases mem_emitD.1 hin with ⟨q, hq2, -, rfl⟩
            have := rtl_nonneg e hwe m q hq2
            have := hgo.2
            simp only
            omega

theorem rtlSnarlGo_nonneg (l : List (List Int × ZipEl)) (k : Nat)
    (h : wfEntries l k = true) (bs : List Int) (hbs : ∀ b ∈ bs, 0 ≤ b) (m : Int) :
    ∀ p ∈ rtlSnarlGo m l bs, 0 ≤ p.2 := by
  match l with
  | [] => intro p hp; simp [rtlSnarlGo] at hp
  | (ds, e) :: rst =>
      rcases wfEntries_cons_iff.1 h with ⟨-, -, -, hwe, hr⟩
      have hhead : 0 ≤ bs.headD 0 := by
        match bs with
        | [] => simp
        | b :: bt => exact hbs b (List.mem_cons_self b bt)
      intro p hp
      simp only [rtlSnarlGo] at hp
      rcases List.mem_append.1 hp with hin | hin
      · exact rtlSnarlGo_nonneg rst (k + 1) hr (bs.drop 1)
          (fun b hb => hbs b (List.mem_of_mem_drop hb)) m p hin
      · rw [emitD_eq_filterMap] at hin
        rcases mem_emitD.1 hin with ⟨q, hq2, -, rfl⟩
        have := rtl_nonneg e hwe m q hq2
        simp only
        omega
end

theorem forall2_append {α β : Type} {R : α → β → Prop} {l₁ u₁ : List α} {l₂ u₂ : List β}
    (h₁ : List.Forall₂ R l₁ l₂) (h₂ : List.Forall₂ R u₁ u₂) :
    List.Forall₂ R (l₁ ++ u₁) (l₂ ++ u₂) := by
  induction h₁ with
  | nil => exact h₂
  | cons hab _ ih => exact List.Forall₂.cons hab ih

theorem forall2_map_block {α β α' β' : Type} {R : α → β → Prop} {S : α' → β' → Prop}
    {f : α → α'} {g : β → β'} {l₁ : List α} {l₂ : List β} (h : List.Forall₂ R l₁ l₂)
    (himp : ∀ a b, R a b → S (f a) (g b)) :
    List.Forall₂ S (l₁.map f) (l₂.map g) := by
  induction h with
  | nil => exact List.Forall₂.nil
  | cons hab _ ih => exact List.Forall₂.cons (himp _ _ hab) ih

/-- Sequencing of walk fragments: if the first fragment stopped, its result
stands; otherwise the second fragment runs from the first one's final
running distance and the outputs concatenate. -/
def stepThen (r : List (Nat × Int) × Int × Bool)
    (f : Int → List (Nat × Int) × Int × Bool) : List (Nat × Int) × Int × Bool :=
  match r with
  | (o, d, true) => (o, d, true)
  | (o, d, false) => (o ++ (f d).1, (f d).2)

theorem stepThen_stop (o : List (Nat × Int)) (d : Int)
    (f : Int → List (Nat × Int) × Int × Bool) : stepThen (o, d, true) f = (o, d, true) := rfl

theorem stepThen_go (o : List (Nat × Int)) (d : Int)
    (f : Int → List (Nat × Int) × Int × Bool) :
    stepThen (o, d, false) f = (o ++ (f d).1, (f d).2) := rfl

theorem stepThen_assoc (r : List (Nat × Int) × Int × Bool)
    (f g : Int → List (Nat × Int) × Int × Bool) :
    stepThen (stepThen r f) g = stepThen r (fun d => stepThen (f d) g) := by
  rcases r with ⟨o, d, st⟩
  match st with
  | true => rfl
  | false =>
      rw [stepThen_go, stepThen_go]
      rcases h₁ : f d with ⟨o₁, d₁, st₁⟩
      match st₁ with
      | true => simp [stepThen_stop, stepThen_go, h₁]
      | false =>
          rcases h₂ : g d₁ with ⟨o₂, d₂, st₂⟩
          simp [stepThen_stop, stepThen_go, h₁, h₂]

/-- The one-item step of the preceding-sub-elements loop of the chain
branch of the outward walker: add the distance token `g` (stop if beyond
the bound), produce the bounded nested seeds, add the crossing distance
(recording whether the bound is now exceeded). -/
def chainStep (m g : Int) (e : ZipEl) (d1 : Int) : List (Nat × Int) × Int × Bool :=
  if m < d1 + g then ([], d1 + g, true)
  else (emitD m (d1 + g) (zip_element_right_to_left_iterator e m),
        d1 + g + crossDist e, decide (m < d1 + g + crossDist e))

theorem reachChainGo_nil (m dfr : Int) : reachChainGo m [] dfr = ([], dfr, false) := rfl

theorem reachChainGo_cons (m g : Int) (e : ZipEl) (rst : List (Int × ZipEl)) (dfr : Int) :
    reachChainGo m ((g, e) :: rst) dfr =
      stepThen (reachChainGo m rst dfr) (chainStep m g e) := by
  rcases h : reachChainGo m rst dfr with ⟨out, dfr1, st⟩
  match st with
  | true => simp [reachChainGo, h, stepThen_stop]
  | false =>
      rw [stepThen_go]
      by_cases hc : m < dfr1 + g
      · simp [reachChainGo, h, chainStep, hc]
      · simp [reachChainGo, h, chainStep, hc, emitD]

theorem reachGo_nil (m dfr : Int) : reachGo m [] dfr = ([], dfr, false) := rfl

theorem reachGo_seed_cons (m : Int) (s j : Nat) (rest : ZPath) (dfr : Int) :
    reachGo m ((ZipEl.seed s, j) :: rest) dfr = ([], dfr, true) := rfl

theorem reachGo_snarl_cons (m : Int) (entries : List (List Int × ZipEl)) (bs : List Int)
    (j : Nat) (rest : ZPath) (dfr : Int) :
    reachGo m ((ZipEl.snarl entries bs, j) :: rest) dfr =
      stepThen
        (reachSnarlGo m dfr (entries.take j) (((entries.getD j ([], ZipEl.seed 0)).1).drop 1),
         dfr + ((entries.getD j ([], ZipEl.seed 0)).1).headD 0,
         decide (m < dfr + ((entries.getD j ([], ZipEl.seed 0)).1).headD 0))
        (fun d => reachGo m rest d) := by
  simp only [reachGo]
  by_cases hc : m < dfr + ((entries.getD j ([], ZipEl.seed 0)).1).headD 0
  · rw [if_pos hc, decide_eq_true hc, stepThen_stop]
  · rw [if_neg hc, decide_eq_false hc, stepThen_go]

theorem reachGo_chain_cons (m : Int) (first : ZipEl) (restL : List (Int × ZipEl))
    (j : Nat) (rest : ZPath) (dfr : Int) :
    reachGo m ((ZipEl.chain first restL, j) :: rest) dfr =
      stepThen (reachChainGo m (chainPre first restL (j / 2)) dfr)
        (fun d => reachGo m rest d) := by
  rcases hc : reachChainGo m (chainPre first restL (j / 2)) dfr with ⟨out, dfr1, st⟩
  match st with
  | true => simp [reachGo, hc, stepThen]
  | false =>
      rcases h : reachGo m rest dfr1 with ⟨out2, dfr2, st2⟩
      simp [reachGo, hc, h, stepThen]

/-- Splitting the preceding-sub-elements loop of the chain branch: the
items of `l₂` (nearer to the seed) are processed first; if they stop the
walk the items of `l₁` are never reached. -/
theorem reachChainGo_append (m : Int) (l₁ l₂ : List (Int × ZipEl)) (dIn : Int) :
    reachChainGo m (l₁ ++ l₂) dIn =
      stepThen (reachChainGo m l₂ dIn) (fun d => reachChainGo m l₁ d) := by
  induction l₁ with
  | nil =>
      rw [List.nil_append]
      rcases h₂ : reachChainGo m l₂ dIn with ⟨o₂, d₂, st₂⟩
      match st₂ with
      | true => rw [stepThen_stop]
      | false => rw [stepThen_go]; simp [reachChainGo_nil]
  | cons a r₁ ih =>
      match a with
      | (g, e) =>
        rw [List.cons_append, reachChainGo_cons, ih, stepThen_assoc]
        congr 1
        funext d
        rw [reachChainGo_cons]

/-- Splitting the outward walk at a path concatenation: the inner part of
the path is processed first; if it stops the walk the outer part is never
reached. -/
theorem reachGo_append (m : Int) (p₁ p₂ : ZPath) (dfr : Int) :
    reachGo m (p₁ ++ p₂) dfr =
      stepThen (reachGo m p₁ dfr) (fun d => reachGo m p₂ d) := by
  induction p₁ generalizing dfr with
  | nil =>
      rw [List.nil_append]
      rcases h₂ : reachGo m p₂ dfr with ⟨o₂, d₂, st₂⟩
      rw [reachGo_nil, stepThen_go, h₂]
      simp
  | cons a r₁ ih =>
      match a with
      | (el, j) =>
        match el with
        | .seed s =>
            rw [List.cons_append, reachGo_seed_cons, reachGo_seed_cons, stepThen_stop]
        | .snarl entries bs =>
            rw [List.cons_append, reachGo_snarl_cons, reachGo_snarl_cons, stepThen_assoc]
            congr 1
            funext d
            rw [ih d]
        | .chain first restL =>
            rw [List.cons_append, reachGo_chain_cons, reachGo_chain_cons, stepThen_assoc]
            congr 1
            funext d
            rw [ih d]

/-! ## The walk-fragment contract and the per-seed relation -/

/-- A walk fragment result: starting at accumulated distance `dfr`, it
produced exactly the semantic records `B` shifted by `dfr` and bounded by
`m`; its final running distance moved from `dfr` by at most `δ` (exactly
`δ` when it did not stop early, and past the bound `m` when it did). -/
def ResultIs (r : List (Nat × Int) × Int × Bool) (m dfr : Int)
    (B : List (Nat × Int)) (δ : Int) : Prop :=
  r.1 = keepLe m (shiftD dfr B) ∧ dfr ≤ r.2.1 ∧ r.2.1 ≤ dfr + δ ∧
    (r.2.2 = true → m < r.2.1) ∧ (r.2.2 = false → r.2.1 = dfr + δ)

theorem ResultIs_mk {o : List (Nat × Int)} {d : Int} {st : Bool} {m dfr : Int}
    {B : List (Nat × Int)} {δ : Int}
    (h1 : o = keepLe m (shiftD dfr B)) (h2 : dfr ≤ d) (h3 : d ≤ dfr + δ)
    (h4 : st = true → m < d) (h5 : st = false → d = dfr + δ) :
    ResultIs (o, d, st) m dfr B δ := ⟨h1, h2, h3, h4, h5⟩

theorem ResultIs_elim {o : List (Nat × Int)} {d : Int} {st : Bool} {m dfr : Int}
    {B : List (Nat × Int)} {δ : Int} (h : ResultIs (o, d, st) m dfr B δ) :
    o = keepLe m (shiftD dfr B) ∧ dfr ≤ d ∧ d ≤ dfr + δ ∧
      (st = true → m < d) ∧ (st = false → d = dfr + δ) := h

theorem ResultIs_stepThen {r : List (Nat × Int) × Int × Bool}
    {f : Int → List (Nat × Int) × Int × Bool} {m dfr : Int}
    {B₁ B₂ : List (Nat × Int)} {δ₁ δ₂ : Int}
    (h₁ : ResultIs r m dfr B₁ δ₁) (hB₂ : ∀ x ∈ B₂, 0 ≤ x.2) (hδ₂ : 0 ≤ δ₂)
    (h₂ : ResultIs (f (dfr + δ₁)) m (dfr + δ₁) B₂ δ₂) :
    ResultIs (stepThen r f) m dfr (B₁ ++ shiftD δ₁ B₂) (δ₁ + δ₂) := by
  rcases r with ⟨o, d, st⟩
  rcases ResultIs_elim h₁ with ⟨ho, hd1, hd2, hst, hsf⟩
  have hsplit : keepLe m (shiftD dfr (B₁ ++ shiftD δ₁ B₂)) =
      keepLe m (shiftD dfr B₁) ++ keepLe m (shiftD (δ₁ + dfr) B₂) := by
    rw [shiftD_append, keepLe_append, shiftD_shiftD]
  match st with
  | true =>
      have hm : m < d := hst rfl
      rw [stepThen_stop]
      have hnil : keepLe m (shiftD (δ₁ + dfr) B₂) = [] :=
        keepLe_shiftD_nil hB₂ (by omega)
      exact ResultIs_mk (by rw [hsplit, hnil, ho, List.append_nil]) hd1 (by omega)
        (fun _ => hm) (by simp)
  | false =>
      have hde : d = dfr + δ₁ := hsf rfl
      rw [stepThen_go]
      subst hde
      rcases hf : f (dfr + δ₁) with ⟨o₂, d₂, st₂⟩
      rw [hf] at h₂
      rcases ResultIs_elim h₂ with ⟨ho₂, hd₂1, hd₂2, hst₂, hsf₂⟩
      refine ResultIs_mk ?_ (by omega) (by omega) ?_ ?_
      · rw [hsplit, ho, ho₂, Int.add_comm δ₁ dfr]
      · intro h; have := hst₂ h; omega
      · intro h; have := hsf₂ h; omega

/-- The relation between a seed's entry in the left-to-right iterator and
its entry in the semantic enumeration: same payload, and the outward walk
over its containment path realises the walk-fragment contract given by its
semantic preceding-seeds record and its distance to the left end. -/
def SeedRel (p : Nat × ZPath) (q : Nat × List (Nat × Int) × Int) : Prop :=
  p.1 = q.1 ∧ 0 ≤ q.2.2 ∧ (∀ r ∈ q.2.1, 0 ≤ r.2) ∧
    ∀ m dfr : Int, 0 ≤ m → 0 ≤ dfr → ResultIs (reachGo m p.2 dfr) m dfr q.2.1 q.2.2

theorem SeedRel_mk {s : Nat} {path : ZPath} {t : Nat} {prec : List (Nat × Int)}
    {dl : Int} (h1 : s = t) (h2 : 0 ≤ dl) (h3 : ∀ r ∈ prec, 0 ≤ r.2)
    (h4 : ∀ m dfr : Int, 0 ≤ m → 0 ≤ dfr → ResultIs (reachGo m path dfr) m dfr prec dl) :
    SeedRel (s, path) (t, prec, dl) := ⟨h1, h2, h3, h4⟩

theorem SeedRel_elim {s : Nat} {path : ZPath} {t : Nat} {prec : List (Nat × Int)}
    {dl : Int} (h : SeedRel (s, path) (t, prec, dl)) :
    s = t ∧ 0 ≤ dl ∧ (∀ r ∈ prec, 0 ≤ r.2) ∧
      ∀ m dfr : Int, 0 ≤ m → 0 ≤ dfr → ResultIs (reachGo m path dfr) m dfr prec dl := h

theorem SeedRel_nil (s : Nat) : SeedRel (s, []) (s, [], 0) := by
  refine SeedRel_mk rfl (le_refl 0) (by simp) ?_
  intro m dfr hm hdfr
  rw [reachGo_nil]
  exact ResultIs_mk (by simp [keepLe, shiftD]) (le_refl dfr) (by omega) (by simp)
    (fun _ => by omega)

theorem SeedRel_extend {p : Nat × ZPath} {q : Nat × List (Nat × Int) × Int}
    {self : ZipEl} {i : Nat} {B : List (Nat × Int)} {δ : Int}
    (h₁ : SeedRel p q) (hB : ∀ x ∈ B, 0 ≤ x.2) (hδ : 0 ≤ δ)
    (h₂ : ∀ m dfr : Int, 0 ≤ m → 0 ≤ dfr →
      ResultIs (reachGo m [(self, i)] dfr) m dfr B δ) :
    SeedRel (p.1, p.2 ++ [(self, i)]) (q.1, q.2.1 ++ shiftD q.2.2 B, q.2.2 + δ) := by
  rcases p with ⟨s, path⟩
  rcases q with ⟨t, prec, dl⟩
  rcases SeedRel_elim h₁ with ⟨hpq, hdl, hprec, hbeh⟩
  show SeedRel (s, path ++ [(self, i)]) (t, prec ++ shiftD dl B, dl + δ)
  refine SeedRel_mk hpq (by omega) ?_ ?_
  · intro x hx
    rcases List.mem_append.1 hx with hx | hx
    · exact hprec x hx
    · rcases List.mem_map.1 hx with ⟨y, hy, rfl⟩
      have := hB y hy
      simp only
      omega
  · intro m dfr hm hdfr
    rw [reachGo_append]
    exact ResultIs_stepThen (hbeh m dfr hm hdfr) hB hδ (h₂ m (dfr + dl) hm (by omega))

/-! ## Positions within a chain -/

/-- The sub-element at position `c` (raw index `2*c`) of the chain
`first :: rest0`. -/
def elemAtC (first : ZipEl) (rest0 : List (Int × ZipEl)) (c : Nat) : ZipEl :=
  (first :: rest0.map Prod.snd).getD c (.seed 0)

theorem elemAtC_zero (f : ZipEl) (r : List (Int × ZipEl)) : elemAtC f r 0 = f := rfl

theorem elemAtC_cons_succ (f : ZipEl) (g : Int) (x : ZipEl) (rr : List (Int × ZipEl))
    (c : Nat) : elemAtC f ((g, x) :: rr) (c + 1) = elemAtC x rr c := by
  simp [elemAtC]

theorem chainPre_zero (f : ZipEl) (r : List (Int × ZipEl)) : chainPre f r 0 = [] := by
  simp [chainPre]

theorem chainPre_cons_succ (f : ZipEl) (g : Int) (x : ZipEl) (rr : List (Int × ZipEl))
    (c : Nat) : chainPre f ((g, x) :: rr) (c + 1) = (g, f) :: chainPre x rr c := by
  simp [chainPre, List.take_succ_cons]

theorem drop_succ_of_drop {α : Type} {l : List α} {c : Nat} {a : α} {rst : List α}
    (h : l.drop c = a :: rst) : l.drop (c + 1) = rst := by
  induction c generalizing l with
  | zero => simp at h; simp [h]
  | succ c ih =>
      match l with
      | [] => simp at h
      | b :: t =>
          rw [List.drop_succ_cons] at h
          rw [List.drop_succ_cons]
          exact ih h

theorem elemAtC_drop {first : ZipEl} {rest0 : List (Int × ZipEl)} {c : Nat} {d : Int}
    {e' : ZipEl} {rst : List (Int × ZipEl)} (hdrop : rest0.drop c = (d, e') :: rst) :
    elemAtC first rest0 (c + 1) = e' := by
  induction c generalizing first rest0 with
  | zero =>
      simp at hdrop
      rw [hdrop]
      simp [elemAtC]
  | succ c ih =>
      match rest0 with
      | [] => simp at hdrop
      | (g, x) :: rr =>
          rw [List.drop_succ_cons] at hdrop
          rw [elemAtC_cons_succ]
          exact ih hdrop

theorem chainPre_succ {first : ZipEl} {rest0 : List (Int × ZipEl)} {c : Nat} {d : Int}
    {e' : ZipEl} {rst : List (Int × ZipEl)} (hdrop : rest0.drop c = (d, e') :: rst) :
    chainPre first rest0 (c + 1) = chainPre first rest0 c ++ [(d, elemAtC first rest0 c)] := by
  induction c generalizing first rest0 with
  | zero =>
      simp at hdrop
      rw [hdrop, chainPre_cons_succ, chainPre_zero, chainPre_zero, elemAtC_zero]
      rfl
  | succ c ih =>
      match rest0 with
      | [] => simp at hdrop
      | (g, x) :: rr =>
          rw [List.drop_succ_cons] at hdrop
          rw [chainPre_cons_succ, chainPre_cons_succ, elemAtC_cons_succ, ih hdrop]
          rfl

/-! ## The chain-level walk invariant -/

/-- Invariant carried while walking a chain's positions left-to-right:
the preceding-sub-elements loop started at position `c` (raw index `2*c`)
realises the walk-fragment contract with semantic records `B` (the seeds of
positions `c-1, …, 0`, nearest first, with distances to the left side of
position `c`) and total leftward distance `off`. -/
def ChainInv (first : ZipEl) (rest0 : List (Int × ZipEl)) (c : Nat)
    (B : List (Nat × Int)) (off : Int) : Prop :=
  (∀ x ∈ B, 0 ≤ x.2) ∧ 0 ≤ off ∧
    ∀ m dIn : Int, 0 ≤ m → 0 ≤ dIn →
      ResultIs (reachChainGo m (chainPre first rest0 c) dIn) m dIn B off

theorem chainInv_zero (first : ZipEl) (rest0 : List (Int × ZipEl)) :
    ChainInv first rest0 0 [] 0 := by
  refine ⟨by simp, le_refl 0, ?_⟩
  intro m dIn hm hdIn
  rw [chainPre_zero, reachChainGo_nil]
  exact ResultIs_mk (by simp [keepLe, shiftD]) (le_refl dIn) (by omega) (by simp)
    (fun _ => by omega)

theorem chainInv_succ {first : ZipEl} {rest0 : List (Int × ZipEl)} {c : Nat}
    {B : List (Nat × Int)} {off : Int} {d : Int} {e' : ZipEl} {rst : List (Int × ZipEl)}
    (h : ChainInv first rest0 c B off) (hdrop : rest0.drop c = (d, e') :: rst)
    (hwfcur : wf (elemAtC first rest0 c) = true) (hd : 0 ≤ d) :
    ChainInv first rest0 (c + 1)
      (shiftD d (distsToRight (elemAtC first rest0 c)).reverse ++
        shiftD (d + crossDist (elemAtC first rest0 c)) B)
      (off + crossDist (elemAtC first rest0 c) + d) := by
  rcases h with ⟨hB, hoff, hbeh⟩
  have hcross := crossDist_nonneg hwfcur
  have hdtr : ∀ x ∈ (distsToRight (elemAtC first rest0 c)).reverse, 0 ≤ x.2 := by
    intro x hx
    exact dtr_nonneg _ hwfcur x (List.mem_reverse.1 hx)
  refine ⟨?_, by omega, ?_⟩
  · intro x hx
    rcases List.mem_append.1 hx with hx | hx
    · rcases List.mem_map.1 hx with ⟨y, hy, rfl⟩
      have := hdtr y hy
      simp only
      omega
    · rcases List.mem_map.1 hx with ⟨y, hy, rfl⟩
      have := hB y hy
      simp only
      omega
  · intro m dIn hm hdIn
    rw [chainPre_succ hdrop, reachChainGo_append]
    have harr : off + crossDist (elemAtC first rest0 c) + d =
        (d + crossDist (elemAtC first rest0 c)) + off := by ring
    rw [harr]
    refine ResultIs_stepThen ?_ hB hoff
      (hbeh m (dIn + (d + crossDist (elemAtC first rest0 c))) hm (by omega))
    -- the single new item: add the distance token, emit, add the crossing
    rw [reachChainGo_cons, reachChainGo_nil, stepThen_go, List.nil_append]
    by_cases hc : m < dIn + d
    · rw [chainStep, if_pos hc]
      have hnil : keepLe m (shiftD dIn (shiftD d (distsToRight (elemAtC first rest0 c)).reverse)) = [] := by
        rw [shiftD_shiftD]
        exact keepLe_shiftD_nil hdtr (by omega)
      exact ResultIs_mk (by rw [hnil]) (by omega) (by omega) (fun _ => hc) (by simp)
    · rw [chainStep, if_neg hc]
      have hm2 : dIn + d ≤ m := by omega
      refine ResultIs_mk ?_ (by omega) (by omega) ?_ ?_
      · rw [rtl_eq _ hwfcur m hm, emitD_reverse, emitD_keepLe m (dIn + d) (by omega),
          shiftD_shiftD, shiftD_reverse, keepLe_reverse, Int.add_comm d dIn]
      · intro hf; exact of_decide_eq_true hf
      · intro hf; have := of_decide_eq_false hf; omega

/-- The walk over the single path entry of a chain container realises the
fragment contract delivered by the chain-level invariant. -/
theorem chainLevel {first : ZipEl} {rest0 : List (Int × ZipEl)} {c : Nat}
    {B : List (Nat × Int)} {off : Int} (h : ChainInv first rest0 c B off) :
    ∀ m dfr : Int, 0 ≤ m → 0 ≤ dfr →
      ResultIs (reachGo m [(ZipEl.chain first rest0, 2 * c)] dfr) m dfr B off := by
  intro m dfr hm hdfr
  rw [reachGo_chain_cons]
  have h2c : 2 * c / 2 = c := by omega
  rw [h2c]
  rcases hr : reachChainGo m (chainPre first rest0 c) dfr with ⟨o, d1, st⟩
  have hres := h.2.2 m dfr hm hdfr
  rw [hr] at hres
  rcases ResultIs_elim hres with ⟨ho, h1, h2, h3, h4⟩
  match st with
  | true => rw [stepThen_stop]; exact ResultIs_mk ho h1 h2 (fun _ => h3 rfl) (by simp)
  | false =>
      rw [stepThen_go, reachGo_nil, List.append_nil]
      exact ResultIs_mk ho h1 h2 (by simp) (fun _ => h4 rfl)

/-! ## The snarl-level walk -/

theorem snarlBehind_nonneg {l : List (List Int × ZipEl)} {js : List Int}
    (hwf : ∀ p ∈ l, wf p.2 = true) (hjs : ∀ x ∈ js, 0 ≤ x) :
    ∀ x ∈ snarlBehind l js, 0 ≤ x.2 := by
  induction l generalizing js with
  | nil => intro x hx; simp [snarlBehind] at hx
  | cons a rst ih =>
      match a with
      | (ds, e) =>
        intro x hx
        simp only [snarlBehind] at hx
        rcases List.mem_append.1 hx with hx | hx
        · exact ih (fun p hp => hwf p (List.mem_cons_of_mem _ hp))
            (fun y hy => hjs y (List.mem_of_mem_drop hy)) x hx
        · rcases List.mem_map.1 hx with ⟨y, hy, rfl⟩
          have h1 := dtr_nonneg e (hwf (ds, e) (List.mem_cons_self _ _)) y
            (List.mem_reverse.1 hy)
          have h2 : 0 ≤ js.headD 0 := by
            match js with
            | [] => simp
            | b :: bt => exact hjs b (List.mem_cons_self b bt)
          simp only
          omega

/-- The preceding-chains loop of the snarl branch produces exactly the
semantic `snarlBehind` records, shifted and bounded. -/
theorem reachSnarlGo_eq {l : List (List Int × ZipEl)} {js : List Int}
    (hwf : ∀ p ∈ l, wf p.2 = true) (hjs : ∀ x ∈ js, 0 ≤ x) (m dfr : Int)
    (hm : 0 ≤ m) (hdfr : 0 ≤ dfr) :
    reachSnarlGo m dfr l js = keepLe m (shiftD dfr (snarlBehind l js)) := by
  induction l generalizing js with
  | nil => simp [reachSnarlGo, snarlBehind, shiftD, keepLe]
  | cons a rst ih =>
      match a with
      | (ds, e) =>
        have hwfe : wf e = true := hwf (ds, e) (List.mem_cons_self _ _)
        have hb : 0 ≤ js.headD 0 := by
          match js with
          | [] => simp
          | b :: bt => exact hjs b (List.mem_cons_self b bt)
        simp only [reachSnarlGo, snarlBehind]
        rw [emitD_eq_filterMap2, shiftD_append, keepLe_append,
          ih (fun p hp => hwf p (List.mem_cons_of_mem _ hp))
            (fun y hy => hjs y (List.mem_of_mem_drop hy)),
          rtl_eq e hwfe m hm, emitD_reverse, emitD_keepLe m (js.headD 0 + dfr) (by omega),
          shiftD_shiftD, shiftD_reverse, keepLe_reverse]

theorem getD_append_cons {α : Type} (A : List α) (x : α) (Bt : List α) (z : α) :
    (A ++ x :: Bt).getD A.length z = x := by
  induction A with
  | nil => rfl
  | cons a t ih => simpa using ih

theorem take_append_cons {α : Type} (A : List α) (x : α) (Bt : List α) :
    (A ++ x :: Bt).take A.length = A := by
  induction A with
  | nil => rfl
  | cons a t ih => simp [ih]

/-- The walk over the single path entry of a snarl container realises the
fragment contract given by the preceding entries' records and the entry's
first distance. -/
theorem snarlLevel {entries prev restl : List (List Int × ZipEl)} {bs ds : List Int}
    {e : ZipEl} (hsplit : entries = prev ++ (ds, e) :: restl)
    (hwfprev : ∀ p ∈ prev, wf p.2 = true) (hds : ∀ x ∈ ds, 0 ≤ x) :
    ∀ m dfr : Int, 0 ≤ m → 0 ≤ dfr →
      ResultIs (reachGo m [(ZipEl.snarl entries bs, prev.length)] dfr) m dfr
        (snarlBehind prev (ds.drop 1)) (ds.headD 0) := by
  intro m dfr hm hdfr
  have hb : 0 ≤ ds.headD 0 := by
    match ds with
    | [] => simp
    | b :: bt => exact hds b (List.mem_cons_self b bt)
  rw [reachGo_snarl_cons, hsplit, getD_append_cons, take_append_cons,
    show ((ds, e) : List Int × ZipEl).1 = ds from rfl]
  have hout : reachSnarlGo m dfr prev (ds.drop 1) =
      keepLe m (shiftD dfr (snarlBehind prev (ds.drop 1))) :=
    reachSnarlGo_eq hwfprev (fun y hy => hds y (List.mem_of_mem_drop hy)) m dfr hm hdfr
  by_cases hc : m < dfr + ds.headD 0
  · rw [decide_eq_true hc, stepThen_stop]
    exact ResultIs_mk hout (by omega) (by omega) (fun _ => hc) (by simp)
  · rw [decide_eq_false hc, stepThen_go, reachGo_nil]
    simp only [List.append_nil]
    exact ResultIs_mk hout (by omega) (by omega) (by simp) (fun _ => rfl)

theorem headD_nonneg {ds : List Int} (h : ∀ x ∈ ds, 0 ≤ x) : 0 ≤ ds.headD 0 := by
  match ds with
  | [] => simp
  | b :: bt => exact h b (List.mem_cons_self b bt)

/-! ## The main correspondence

For a well-formed element, the left-to-right iterator's entries and the
semantic enumeration's entries correspond seed by seed: same payloads, and
the outward walk over each containment path realises the walk-fragment
contract of the seed's semantic record. -/

mutual
theorem ltr_rel (e : ZipEl) (h : wf e = true) :
    List.Forall₂ SeedRel (zip_element_left_to_right_iterator e) (ltrSem e) := by
  match e with
  | .seed s =>
      simp only [zip_element_left_to_right_iterator, ltrSem]
      exact List.Forall₂.cons (SeedRel_nil s) List.Forall₂.nil
  | .chain first rest =>
      rcases wf_chain_iff.1 h with ⟨-, h1, h2⟩
      have hrec := ltrChainGo_rel first rest 0 first rest [] 0 rfl (by simp) h1 h2
        (chainInv_zero first rest)
      simp only [zip_element_left_to_right_iterator, ltrSem]
      simpa using hrec
  | .snarl entries bs =>
      rcases wf_snarl_iff.1 h with ⟨-, -, hes⟩
      have hrec := ltrSnarlGo_rel entries bs [] entries 1 (by simp) (by simp) hes
      simp only [zip_element_left_to_right_iterator, ltrSem]
      simpa using hrec
termination_by sizeOf e
decreasing_by all_goals (simp_wf <;> omega)

theorem ltrChainGo_rel (first : ZipEl) (rest0 : List (Int × ZipEl)) (c : Nat)
    (cur : ZipEl) (rest : List (Int × ZipEl)) (B : List (Nat × Int)) (off : Int)
    (hcur : elemAtC first rest0 c = cur) (hdrop : rest0.drop c = rest)
    (hwfcur : wf cur = true) (hwfrest : wfRest rest = true)
    (hinv : ChainInv first rest0 c B off) :
    List.Forall₂ SeedRel
      ((zip_element_left_to_right_iterator cur).map
        (fun p => (p.1, p.2 ++ [(ZipEl.chain first rest0, 2 * c)])) ++
        ltrChainGo (ZipEl.chain first rest0) (2 * c + 2) rest)
      (ltrSemChainGo B off cur rest) := by
  match rest with
  | [] =>
      have hblock : List.Forall₂ SeedRel
          ((zip_element_left_to_right_iterator cur).map
            (fun p => (p.1, p.2 ++ [(ZipEl.chain first rest0, 2 * c)])))
          ((ltrSem cur).map (fun q => (q.1, q.2.1 ++ shiftD q.2.2 B, q.2.2 + off))) :=
        forall2_map_block (ltr_rel cur hwfcur)
          (fun a b hab => SeedRel_extend hab hinv.1 hinv.2.1 (chainLevel hinv))
      simp only [ltrChainGo, ltrSemChainGo, List.append_nil]
      exact hblock
  | (d, e') :: rst =>
      have hblock : List.Forall₂ SeedRel
          ((zip_element_left_to_right_iterator cur).map
            (fun p => (p.1, p.2 ++ [(ZipEl.chain first rest0, 2 * c)])))
          ((ltrSem cur).map (fun q => (q.1, q.2.1 ++ shiftD q.2.2 B, q.2.2 + off))) :=
        forall2_map_block (ltr_rel cur hwfcur)
          (fun a b hab => SeedRel_extend hab hinv.1 hinv.2.1 (chainLevel hinv))
      rcases wfRest_cons_iff.1 hwfrest with ⟨hd, -, hwe', hr⟩
      have hwfel : wf (elemAtC first rest0 c) = true := by rw [hcur]; exact hwfcur
      have hinv' := chainInv_succ hinv hdrop hwfel hd
      rw [hcur] at hinv'
      have hrec := ltrChainGo_rel first rest0 (c + 1) e' rst
        (shiftD d (distsToRight cur).reverse ++ shiftD (d + crossDist cur) B)
        (off + crossDist cur + d)
        (elemAtC_drop hdrop) (drop_succ_of_drop hdrop) hwe' hr hinv'
      simp only [ltrChainGo, ltrSemChainGo]
      refine forall2_append hblock ?_
      have h2c : 2 * (c + 1) = 2 * c + 2 := by ring
      rw [h2c] at hrec
      exact hrec
termination_by sizeOf cur + sizeOf rest
decreasing_by all_goals (simp_wf <;> omega)

theorem ltrSnarlGo_rel (entries : List (List Int × ZipEl)) (bs : List Int)
    (prev l : List (List Int × ZipEl)) (k : Nat) (hsplit : entries = prev ++ l)
    (hwfprev : ∀ p ∈ prev, wf p.2 = true) (hwfl : wfEntries l k = true) :
    List.Forall₂ SeedRel (ltrSnarlGo (ZipEl.snarl entries bs) prev.length l)
      (ltrSemSnarlGo prev l) := by
  match l with
  | [] =>
      simp only [ltrSnarlGo, ltrSemSnarlGo]
      exact List.Forall₂.nil
  | (ds, e) :: rst =>
      rcases wfEntries_cons_iff.1 hwfl with ⟨-, hds, -, hwe, hr⟩
      have hblock : List.Forall₂ SeedRel
          ((zip_element_left_to_right_iterator e).map
            (fun p => (p.1, p.2 ++ [(ZipEl.snarl entries bs, prev.length)])))
          ((ltrSem e).map (fun q =>
            (q.1, q.2.1 ++ shiftD q.2.2 (snarlBehind prev (ds.drop 1)),
             q.2.2 + ds.headD 0))) :=
        forall2_map_block (ltr_rel e hwe)
          (fun a b hab => SeedRel_extend hab
            (snarlBehind_nonneg hwfprev (fun y hy => hds y (List.mem_of_mem_drop hy)))
            (headD_nonneg hds)
            (@snarlLevel entries prev rst bs ds e hsplit hwfprev hds))
      have hrec := ltrSnarlGo_rel entries bs (prev ++ [(ds, e)]) rst (k + 1)
        (by simpa [List.append_assoc] using hsplit)
        (by
          intro p hp
          rcases List.mem_append.1 hp with hp | hp
          · exact hwfprev p hp
          · rcases List.mem_singleton.1 hp with rfl
            exact hwe)
        hr
      simp only [ltrSnarlGo, ltrSemSnarlGo]
      refine forall2_append hblock ?_
      have hlen : (prev ++ [(ds, e)]).length = prev.length + 1 := by simp
      rw [hlen] at hrec
      exact hrec
termination_by sizeOf l
decreasing_by all_goals (simp_wf <;> omega)
end

/-! ## Payload projections -/

mutual
theorem ltr_fst (e : ZipEl) :
    (zip_element_left_to_right_iterator e).map Prod.fst = seedsOf e := by
  match e with
  | .seed s => simp [zip_element_left_to_right_iterator, seedsOf]
  | .chain first rest =>
      simp only [zip_element_left_to_right_iterator, seedsOf, List.map_append,
        List.map_map, fst_comp_keep, ltr_fst first,
        ltrChainGo_fst (ZipEl.chain first rest) 2 rest]
  | .snarl entries bs =>
      simp only [zip_element_left_to_right_iterator, seedsOf,
        ltrSnarlGo_fst (ZipEl.snarl entries bs) 0 entries]

theorem ltrChainGo_fst (self : ZipEl) (i : Nat) (l : List (Int × ZipEl)) :
    (ltrChainGo self i l).map Prod.fst = seedsOfRest l := by
  match l with
  | [] => simp [ltrChainGo, seedsOfRest]
  | (d, e) :: rst =>
      simp only [ltrChainGo, seedsOfRest, List.map_append, List.map_map, fst_comp_keep,
        ltr_fst e, ltrChainGo_fst self (i + 2) rst]

theorem ltrSnarlGo_fst (self : ZipEl) (i : Nat) (l : List (List Int × ZipEl)) :
    (ltrSnarlGo self i l).map Prod.fst = seedsOfEntries l := by
  match l with
  | [] => simp [ltrSnarlGo, seedsOfEntries]
  | (ds, e) :: rst =>
      simp only [ltrSnarlGo, seedsOfEntries, List.map_append, List.map_map, fst_comp_keep,
        ltr_fst e, ltrSnarlGo_fst self (i + 1) rst]
end

mutual
theorem dtr_fst (e : ZipEl) : (distsToRight e).map Prod.fst = seedsOf e := by
  match e with
  | .seed s => simp [distsToRight, seedsOf]
  | .chain first rest =>
      simp only [distsToRight, seedsOf]
      rcases hq : dtrChain rest with ⟨l, off⟩
      have := dtrChain_fst rest
      rw [hq] at this
      simp only [List.map_append, fst_shiftD, dtr_fst first, this]
  | .snarl entries bs =>
      simp only [distsToRight, seedsOf, dtrSnarl_fst entries (bs.drop 1)]

theorem dtrChain_fst (l : List (Int × ZipEl)) :
    (dtrChain l).1.map Prod.fst = seedsOfRest l := by
  match l with
  | [] => simp [dtrChain, seedsOfRest]
  | (d, e) :: rst =>
      simp only [dtrChain, seedsOfRest]
      rcases hq : dtrChain rst with ⟨lr, off⟩
      have := dtrChain_fst rst
      rw [hq] at this
      simp only [List.map_append, fst_shiftD, dtr_fst e, this]

theorem dtrSnarl_fst (l : List (List Int × ZipEl)) (bs : List Int) :
    (dtrSnarl l bs).map Prod.fst = seedsOfEntries l := by
  match l with
  | [] => simp [dtrSnarl, seedsOfEntries]
  | (ds, e) :: rst =>
      simp only [dtrSnarl, seedsOfEntries, List.map_append, fst_shiftD, dtr_fst e,
        dtrSnarl_fst rst (bs.drop 1)]
end

theorem snarlBehind_fst (l : List (List Int × ZipEl)) (js : List Int) :
    (snarlBehind l js).map Prod.fst = (seedsOfEntries l).reverse := by
  induction l generalizing js with
  | nil => simp [snarlBehind, seedsOfEntries]
  | cons a rst ih =>
      match a with
      | (ds, e) =>
        simp only [snarlBehind, seedsOfEntries, List.map_append, fst_shiftD,
          List.map_reverse, dtr_fst e, ih (js.drop 1), List.reverse_append]

/-! ## Positions of the preceding seeds

`PrecOK acc l` walks a semantic enumeration left-to-right carrying the
payloads already passed (`acc`, outermost context included): each entry's
preceding-seeds record lists exactly the passed payloads, nearest first. -/

def PrecOK : List Nat → List (Nat × List (Nat × Int) × Int) → Prop
  | _, [] => True
  | acc, q :: rest => q.2.1.map Prod.fst = acc.reverse ∧ PrecOK (acc ++ [q.1]) rest

theorem PrecOK_append {acc : List Nat} {l₁ l₂ : List (Nat × List (Nat × Int) × Int)}
    (h₁ : PrecOK acc l₁) (h₂ : PrecOK (acc ++ l₁.map Prod.fst) l₂) :
    PrecOK acc (l₁ ++ l₂) := by
  induction l₁ generalizing acc with
  | nil => simpa using h₂
  | cons q rst ih =>
      rcases h₁ with ⟨hq, hrst⟩
      refine ⟨hq, ih hrst ?_⟩
      simpa [List.append_assoc] using h₂

theorem PrecOK_block {sem : List (Nat × List (Nat × Int) × Int)} {B : List (Nat × Int)}
    {acc acc₀ : List Nat} {f : Nat × List (Nat × Int) × Int → Int}
    {g : Nat × List (Nat × Int) × Int → Int}
    (h : PrecOK acc₀ sem) (hB : B.map Prod.fst = acc.reverse) :
    PrecOK (acc ++ acc₀)
      (sem.map (fun q => (q.1, q.2.1 ++ shiftD (f q) B, g q))) := by
  induction sem generalizing acc₀ with
  | nil => trivial
  | cons q rst ih =>
      rcases h with ⟨hq, hrst⟩
      refine ⟨?_, ?_⟩
      · simp only [List.map_append, fst_shiftD, hq, hB, List.reverse_append]
      · simpa [List.append_assoc] using ih hrst

theorem PrecOK_get {acc : List Nat} {l : List (Nat × List (Nat × Int) × Int)}
    (h : PrecOK acc l) :
    ∀ n (hn : n < l.length),
      ((l.get ⟨n, hn⟩).2.1).map Prod.fst = (acc ++ (l.map Prod.fst).take n).reverse := by
  induction l generalizing acc with
  | nil => intro n hn; cases hn
  | cons q rst ih =>
      rcases h with ⟨hq, hrst⟩
      intro n hn
      match n with
      | 0 => simpa using hq
      | n + 1 =>
          have := ih hrst n (by simpa using hn)
          simpa [List.append_assoc] using this

theorem seedsOfEntries_append (l₁ l₂ : List (List Int × ZipEl)) :
    seedsOfEntries (l₁ ++ l₂) = seedsOfEntries l₁ ++ seedsOfEntries l₂ := by
  induction l₁ with
  | nil => simp [seedsOfEntries]
  | cons a t ih =>
      match a with
      | (ds, e) => simp [seedsOfEntries, ih, List.append_assoc]

mutual
theorem ltrSem_fst (e : ZipEl) : (ltrSem e).map Prod.fst = seedsOf e := by
  match e with
  | .seed s => simp [ltrSem, seedsOf]
  | .chain first rest =>
      simp only [ltrSem, seedsOf]
      have := ltrSemChainGo_fst [] 0 first rest
      simpa [seedsOf] using this
  | .snarl entries bs =>
      simp only [ltrSem, seedsOf]
      exact ltrSemSnarlGo_fst [] entries
termination_by sizeOf e
decreasing_by all_goals (simp_wf <;> omega)

theorem ltrSemChainGo_fst (B : List (Nat × Int)) (off : Int) (cur : ZipEl)
    (rest : List (Int × ZipEl)) :
    (ltrSemChainGo B off cur rest).map Prod.fst = seedsOf cur ++ seedsOfRest rest := by
  match rest with
  | [] =>
      simp only [ltrSemChainGo, seedsOfRest, List.map_map, fst_comp_keep,
        ltrSem_fst cur, List.append_nil]
  | (d, e') :: rst =>
      simp only [ltrSemChainGo, seedsOfRest, List.map_append, List.map_map, fst_comp_keep,
        ltrSem_fst cur, ltrSemChainGo_fst _ _ e' rst, List.append_assoc]
termination_by sizeOf cur + sizeOf rest
decreasing_by all_goals (simp_wf <;> omega)

theorem ltrSemSnarlGo_fst (prev l : List (List Int × ZipEl)) :
    (ltrSemSnarlGo prev l).map Prod.fst = seedsOfEntries l := by
  match l with
  | [] => simp [ltrSemSnarlGo, seedsOfEntries]
  | (ds, e) :: rst =>
      simp only [ltrSemSnarlGo, seedsOfEntries, List.map_append, List.map_map,
        fst_comp_keep, ltrSem_fst e, ltrSemSnarlGo_fst (prev ++ [(ds, e)]) rst]
termination_by sizeOf l
decreasing_by all_goals (simp_wf <;> omega)
end

mutual
theorem ltrSem_precOK (e : ZipEl) : PrecOK [] (ltrSem e) := by
  match e with
  | .seed s => simp [ltrSem, PrecOK]
  | .chain first rest =>
      simp only [ltrSem]
      exact ltrSemChainGo_precOK [] 0 first rest [] (by simp)
  | .snarl entries bs =>
      simp only [ltrSem]
      have := ltrSemSnarlGo_precOK [] entries
      simpa [seedsOfEntries] using this
termination_by sizeOf e
decreasing_by all_goals (simp_wf <;> omega)

theorem ltrSemChainGo_precOK (B : List (Nat × Int)) (off : Int) (cur : ZipEl)
    (rest : List (Int × ZipEl)) (acc : List Nat)
    (hB : B.map Prod.fst = acc.reverse) :
    PrecOK acc (ltrSemChainGo B off cur rest) := by
  match rest with
  | [] =>
      simp only [ltrSemChainGo]
      have := @PrecOK_block (ltrSem cur) B acc [] (fun q => q.2.2) (fun q => q.2.2 + off)
        (ltrSem_precOK cur) hB
      simpa using this
  | (d, e') :: rst =>
      simp only [ltrSemChainGo]
      refine PrecOK_append ?_ ?_
      · have := @PrecOK_block (ltrSem cur) B acc [] (fun q => q.2.2) (fun q => q.2.2 + off)
          (ltrSem_precOK cur) hB
        simpa using this
      · have hfst : (List.map (fun q => (q.1, q.2.1 ++ shiftD q.2.2 B, q.2.2 + off))
            (ltrSem cur)).map Prod.fst = seedsOf cur := by
          simp only [List.map_map, fst_comp_keep, ltrSem_fst cur]
        rw [hfst]
        refine ltrSemChainGo_precOK _ _ e' rst (acc ++ seedsOf cur) ?_
        simp only [List.map_append, fst_shiftD, List.map_reverse, dtr_fst cur, hB,
          List.reverse_append]
termination_by sizeOf cur + sizeOf rest
decreasing_by all_goals (simp_wf <;> omega)

theorem ltrSemSnarlGo_precOK (prev l : List (List Int × ZipEl)) :
    PrecOK (seedsOfEntries prev) (ltrSemSnarlGo prev l) := by
  match l with
  | [] => simp [ltrSemSnarlGo, PrecOK]
  | (ds, e) :: rst =>
      simp only [ltrSemSnarlGo]
      refine PrecOK_append ?_ ?_
      · have := @PrecOK_block (ltrSem e) (snarlBehind prev (ds.drop 1))
          (seedsOfEntries prev) [] (fun q => q.2.2) (fun q => q.2.2 + ds.headD 0)
          (ltrSem_precOK e) (snarlBehind_fst prev (ds.drop 1))
        simpa using this
      · have hfst : (List.map (fun q =>
            (q.1, q.2.1 ++ shiftD q.2.2 (snarlBehind prev (ds.drop 1)),
             q.2.2 + ds.headD 0)) (ltrSem e)).map Prod.fst = seedsOf e := by
          simp only [List.map_map, fst_comp_keep, ltrSem_fst e]
        rw [hfst]
        have := ltrSemSnarlGo_precOK (prev ++ [(ds, e)]) rst
        have hse : seedsOfEntries (prev ++ [(ds, e)]) =
            seedsOfEntries prev ++ seedsOf e := by
          rw [seedsOfEntries_append]
          simp [seedsOfEntries]
        rw [hse] at this
        exact this
termination_by sizeOf l
decreasing_by all_goals (simp_wf <;> omega)
end

/-! ## Every produced distance respects the bound -/

theorem rtlChainGo_mem_le (m : Int) (l : List (Int × ZipEl)) :
    ∀ p ∈ (rtlChainGo m l).1, p.2 ≤ m := by
  induction l with
  | nil => intro p hp; simp [rtlChainGo] at hp
  | cons a rst ih =>
      match a with
      | (d, e) =>
        intro p hp
        simp only [rtlChainGo] at hp
        rcases hq : rtlChainGo m rst with ⟨out, dfr, stopped⟩
        rw [hq] at hp ih
        match stopped with
        | true =>
            simp only [if_pos] at hp
            exact ih p hp
        | false =>
            simp only [Bool.false_eq_true, if_false] at hp
            rcases List.mem_append.1 hp with hin | hin
            · exact ih p hin
            · rw [emitD_eq_filterMap] at hin
              rcases mem_emitD.1 hin with ⟨q, -, hle, rfl⟩
              exact hle

theorem rtlSnarlGo_mem_le (m : Int) (l : List (List Int × ZipEl)) (bs : List Int) :
    ∀ p ∈ rtlSnarlGo m l bs, p.2 ≤ m := by
  induction l generalizing bs with
  | nil => intro p hp; simp [rtlSnarlGo] at hp
  | cons a rst ih =>
      match a with
      | (ds, e) =>
        intro p hp
        simp only [rtlSnarlGo] at hp
        rcases List.mem_append.1 hp with hin | hin
        · exact ih (bs.drop 1) p hin
        · rw [emitD_eq_filterMap] at hin
          rcases mem_emitD.1 hin with ⟨q, -, hle, rfl⟩
          exact hle

theorem rtl_le {e : ZipEl} {m : Int} (hm : 0 ≤ m) :
    ∀ p ∈ zip_element_right_to_left_iterator e m, p.2 ≤ m := by
  match e with
  | .seed s =>
      intro p hp
      simp only [zip_element_right_to_left_iterator, List.mem_singleton] at hp
      simp [hp, hm]
  | .chain first rest =>
      intro p hp
      simp only [zip_element_right_to_left_iterator] at hp
      rcases hq : rtlChainGo m rest with ⟨out, dfr, stopped⟩
      rw [hq] at hp
      have hgo := rtlChainGo_mem_le m rest
      rw [hq] at hgo
      match stopped with
      | true =>
          simp only [if_pos] at hp
          exact hgo p hp
      | false =>
          simp only [Bool.false_eq_true, if_false] at hp
          rcases List.mem_append.1 hp with hin | hin
          · exact hgo p hin
          · rw [emitD_eq_filterMap] at hin
            rcases mem_emitD.1 hin with ⟨q, -, hle, rfl⟩
            exact hle
  | .snarl entries bs =>
      intro p hp
      exact rtlSnarlGo_mem_le m entries (bs.drop 1) p hp

theorem reachSnarlGo_mem_le (m dfr : Int) (l : List (List Int × ZipEl)) (js : List Int) :
    ∀ p ∈ reachSnarlGo m dfr l js, p.2 ≤ m := by
  induction l generalizing js with
  | nil => intro p hp; simp [reachSnarlGo] at hp
  | cons a rst ih =>
      match a with
      | (ds, e) =>
        intro p hp
        simp only [reachSnarlGo] at hp
        rcases List.mem_append.1 hp with hin | hin
        · exact ih (js.drop 1) p hin
        · rw [emitD_eq_filterMap2] at hin
          rcases mem_emitD.1 hin with ⟨q, -, hle, rfl⟩
          exact hle

theorem reachChainGo_mem_le (m : Int) (items : List (Int × ZipEl)) (dfr : Int) :
    ∀ p ∈ (reachChainGo m items dfr).1, p.2 ≤ m := by
  induction items with
  | nil => intro p hp; simp [reachChainGo_nil] at hp
  | cons a rst ih =>
      match a with
      | (g, e) =>
        intro p hp
        rw [reachChainGo_cons] at hp
        rcases hq : reachChainGo m rst dfr with ⟨out, dfr1, stopped⟩
        rw [hq] at hp ih
        match stopped with
        | true => exact ih p hp
        | false =>
            rw [stepThen_go] at hp
            rcases List.mem_append.1 hp with hin | hin
            · exact ih p hin
            · by_cases hc : m < dfr1 + g
              · rw [chainStep, if_pos hc] at hin
                simp at hin
              · rw [chainStep, if_neg hc] at hin
                rcases mem_emitD.1 hin with ⟨q, -, hle, rfl⟩
                exact hle

theorem reachGo_mem_le (m : Int) (path : ZPath) (dfr : Int) :
    ∀ p ∈ (reachGo m path dfr).1, p.2 ≤ m := by
  induction path generalizing dfr with
  | nil => intro p hp; simp [reachGo_nil] at hp
  | cons a rest ih =>
      match a with
      | (el, j) =>
        intro p hp
        match el with
        | .seed s => simp [reachGo_seed_cons] at hp
        | .snarl entries bs =>
            rw [reachGo_snarl_cons] at hp
            by_cases hc : m < dfr + ((entries.getD j ([], ZipEl.seed 0)).1).headD 0
            · rw [decide_eq_true hc, stepThen_stop] at hp
              exact reachSnarlGo_mem_le m dfr _ _ p hp
            · rw [decide_eq_false hc, stepThen_go] at hp
              rcases List.mem_append.1 hp with hin | hin
              · exact reachSnarlGo_mem_le m dfr _ _ p hin
              · exact ih _ p hin
        | .chain first restL =>
            rw [reachGo_chain_cons] at hp
            rcases hq : reachChainGo m (chainPre first restL (j / 2)) dfr
              with ⟨out, dfr1, stopped⟩
            have hgo := reachChainGo_mem_le m (chainPre first restL (j / 2)) dfr
            rw [hq] at hp hgo
            match stopped with
            | true => exact hgo p hp
            | false =>
                rw [stepThen_go] at hp
                rcases List.mem_append.1 hp with hin | hin
                · exact hgo p hin
                · exact ih dfr1 p hin

/-- Claim C3: for a well-formed element, a containment path and a
non-negative bound, every distance produced by the right-to-left walker,
the outward reachability walker and the all-pairs enumerator is at most
the bound supplied to that query. -/
theorem C3_bound_respected (e t : ZipEl) (path : ZPath) (m : Int)
    (_hwf : wf e = true) (hm : 0 ≤ m) :
    (∀ p ∈ zip_element_right_to_left_iterator e m, p.2 ≤ m) ∧
    (∀ q ∈ zip_reachable_iterator path m, q.2 ≤ m) ∧
    (∀ tr ∈ zip_element_pairs_iterator t m, tr.2.2 ≤ m) := by
  refine ⟨rtl_le hm, fun q hq => reachGo_mem_le m path 0 q hq, ?_⟩
  intro tr htr
  rcases List.mem_flatMap.1 htr with ⟨p, -, hin⟩
  rcases List.mem_map.1 hin with ⟨q, hq, rfl⟩
  exact reachGo_mem_le m p.2 0 q hq

/-- Witness for C3 on the example tree of the source. -/
theorem C3_bound_respected_witness :
    wf exTree = true ∧ (0 : Int) ≤ 15 ∧
      (∀ p ∈ zip_element_right_to_left_iterator exTree 15, p.2 ≤ 15) ∧
      (∀ q ∈ zip_reachable_iterator [(exTree, 4)] 15, q.2 ≤ 15) ∧
      (∀ tr ∈ zip_element_pairs_iterator exTree 15, tr.2.2 ≤ 15) := by
  refine ⟨by decide, by decide, ?_⟩
  exact C3_bound_respected exTree exTree [(exTree, 4)] 15 (by decide) (by decide)

/-! ## Claims C9 and C10 -/

/-- Claim C9: a snarl with no chain entries (its boundary record a single
entry) yields nothing, both under the right-to-left walker and under the
left-to-right enumerator. -/
theorem C9_empty_snarl (b m : Int) :
    zip_element_right_to_left_iterator (ZipEl.snarl [] [b]) m = [] ∧
    zip_element_left_to_right_iterator (ZipEl.snarl [] [b]) = [] := by
  constructor
  · simp [zip_element_right_to_left_iterator, rtlSnarlGo]
  · simp [zip_element_left_to_right_iterator, ltrSnarlGo]

/-- Claim C10: the outward reachability walker on an empty containment
path yields nothing, and hence the all-pairs enumerator on a tree that is
a single bare seed yields nothing. -/
theorem C10_empty_path (m : Int) (s : Nat) :
    zip_reachable_iterator [] m = [] ∧
    zip_element_pairs_iterator (ZipEl.seed s) m = [] := by
  constructor
  · rfl
  · simp [zip_element_pairs_iterator, zip_element_left_to_right_iterator,
      zip_reachable_iterator, reachGo]

/-! ## Claim C4: the left-to-right enumerator -/

/-- The child of an element at a raw index: for a chain, raw index `0` is
the first sub-element and raw index `2*(p+1)` is the `p`-th tail
sub-element (odd indices are distance tokens); for a snarl, the index is
the chain-entry number. -/
def childAt : ZipEl → Nat → Option ZipEl
  | .seed _, _ => none
  | .chain f r, i =>
      if i = 0 then some f
      else if i % 2 = 0 then (r[i / 2 - 1]?).map Prod.snd else none
  | .snarl entries _, i => (entries[i]?).map Prod.snd

/-- A containment path read outermost-first is a descent: each recorded
container is the element reached so far and each recorded index leads to
the next element, ending at the seed. -/
def descends : ZipEl → List (ZipEl × Nat) → Nat → Prop
  | e, [], s => e = ZipEl.seed s
  | e, (c, i) :: rest, s => c = e ∧ ∃ e', childAt e i = some e' ∧ descends e' rest s

theorem getElem?_of_drop {α : Type} {l : List α} {c : Nat} {a : α} {rst : List α}
    (h : l.drop c = a :: rst) : l[c]? = some a := by
  induction c generalizing l with
  | zero => simp at h; simp [h]
  | succ c ih =>
      match l with
      | [] => simp at h
      | b :: t =>
          rw [List.drop_succ_cons] at h
          simpa using ih h

theorem childAt_chain_zero (f : ZipEl) (r : List (Int × ZipEl)) :
    childAt (ZipEl.chain f r) 0 = some f := by simp [childAt]

theorem childAt_chain_even {first : ZipEl} {rest0 : List (Int × ZipEl)} {c : Nat}
    {d : Int} {e : ZipEl} {rst : List (Int × ZipEl)}
    (hdrop : rest0.drop c = (d, e) :: rst) :
    childAt (ZipEl.chain first rest0) (2 * c + 2) = some e := by
  simp only [childAt]
  rw [if_neg (by omega), if_pos (by omega)]
  have h1 : (2 * c + 2) / 2 - 1 = c := by omega
  rw [h1, getElem?_of_drop hdrop]
  rfl

theorem childAt_snarl {entries : List (List Int × ZipEl)} {bs : List Int} {i : Nat}
    {ds : List Int} {e : ZipEl} {rst : List (List Int × ZipEl)}
    (hdrop : entries.drop i = (ds, e) :: rst) :
    childAt (ZipEl.snarl entries bs) i = some e := by
  simp only [childAt]
  rw [getElem?_of_drop hdrop]
  rfl

mutual
theorem ltr_descends (e : ZipEl) :
    ∀ p ∈ zip_element_left_to_right_iterator e, descends e p.2.reverse p.1 := by
  match e with
  | .seed s =>
      intro p hp
      simp only [zip_element_left_to_right_iterator, List.mem_singleton] at hp
      rw [hp]
      rfl
  | .chain first rest =>
      intro p hp
      simp only [zip_element_left_to_right_iterator] at hp
      rcases List.mem_append.1 hp with hin | hin
      · rcases List.mem_map.1 hin with ⟨q, hq, rfl⟩
        simp only [List.reverse_append, List.reverse_singleton, List.singleton_append]
        exact ⟨rfl, first, childAt_chain_zero first rest, ltr_descends first q hq⟩
      · have := ltrChainGo_descends first rest 0 rest rfl
        simpa using this p hin
  | .snarl entries bs =>
      intro p hp
      simp only [zip_element_left_to_right_iterator] at hp
      exact ltrSnarlGo_descends entries bs 0 entries rfl p hp
termination_by sizeOf e
decreasing_by all_goals (simp_wf <;> omega)

theorem ltrChainGo_descends (first : ZipEl) (rest0 : List (Int × ZipEl)) (c : Nat)
    (l : List (Int × ZipEl)) (hdrop : rest0.drop c = l) :
    ∀ p ∈ ltrChainGo (ZipEl.chain first rest0) (2 * c + 2) l,
      descends (ZipEl.chain first rest0) p.2.reverse p.1 := by
  match l with
  | [] => intro p hp; simp [ltrChainGo] at hp
  | (d, e) :: rst =>
      intro p hp
      simp only [ltrChainGo] at hp
      rcases List.mem_append.1 hp with hin | hin
      · rcases List.mem_map.1 hin with ⟨q, hq, rfl⟩
        simp only [List.reverse_append, List.reverse_singleton, List.singleton_append]
        exact ⟨rfl, e, childAt_chain_even hdrop, ltr_descends e q hq⟩
      · have := ltrChainGo_descends first rest0 (c + 1) rst (drop_succ_of_drop hdrop)
        have h2 : 2 * (c + 1) + 2 = 2 * c + 2 + 2 := by ring
        rw [h2] at this
        exact this p hin
termination_by sizeOf l
decreasing_by all_goals (simp_wf <;> omega)

theorem ltrSnarlGo_descends (entries : List (List Int × ZipEl)) (bs : List Int)
    (i : Nat) (l : List (List Int × ZipEl)) (hdrop : entries.drop i = l) :
    ∀ p ∈ ltrSnarlGo (ZipEl.snarl entries bs) i l,
      descends (ZipEl.snarl entries bs) p.2.reverse p.1 := by
  match l with
  | [] => intro p hp; simp [ltrSnarlGo] at hp
  | (ds, e) :: rst =>
      intro p hp
      simp only [ltrSnarlGo] at hp
      rcases List.mem_append.1 hp with hin | hin
      · rcases List.mem_map.1 hin with ⟨q, hq, rfl⟩
        simp only [List.reverse_append, List.reverse_singleton, List.singleton_append]
        exact ⟨rfl, e, childAt_snarl hdrop, ltr_descends e q hq⟩
      · exact ltrSnarlGo_descends entries bs (i + 1) rst (drop_succ_of_drop hdrop) p hin
termination_by sizeOf l
decreasing_by all_goals (simp_wf <;> omega)
end

/-- Claim C4: for a well-formed element, the left-to-right enumerator
yields exactly the seeds of the subtree, in left-to-right order (each
occurrence exactly once), and pairs each with its containment path: read
innermost-to-outermost it records each container with the seed's raw index
within it (the alternating-list position for a chain, the entry number for
a snarl), which is precisely a descent from the element to the seed. -/
theorem C4_left_to_right (e : ZipEl) (_hwf : wf e = true) :
    (zip_element_left_to_right_iterator e).map Prod.fst = seedsOf e ∧
    ∀ p ∈ zip_element_left_to_right_iterator e, descends e p.2.reverse p.1 :=
  ⟨ltr_fst e, ltr_descends e⟩

/-- Witness for C4 on the example tree of the source. -/
theorem C4_left_to_right_witness :
    wf exTree = true ∧
      ((zip_element_left_to_right_iterator exTree).map Prod.fst = seedsOf exTree ∧
        ∀ p ∈ zip_element_left_to_right_iterator exTree, descends exTree p.2.reverse p.1) :=
  ⟨by decide, C4_left_to_right exTree (by decide)⟩

/-! ## Claim C7: monotonicity within a chain of seeds -/

def isSeed : ZipEl → Bool
  | .seed _ => true
  | _ => false

theorem dtrChain_seed_sorted (l : List (Int × ZipEl))
    (hseed : ∀ x ∈ l, isSeed x.2 = true) (hgap : ∀ x ∈ l, 0 ≤ x.1) :
    List.Pairwise (fun p q => q.2 ≤ p.2) (dtrChain l).1 ∧
      ∀ x ∈ (dtrChain l).1, x.2 ≤ (dtrChain l).2 := by
  induction l with
  | nil => simp [dtrChain]
  | cons a rst ih =>
      match a with
      | (d, e) =>
        have hs : isSeed e = true := hseed (d, e) (List.mem_cons_self _ _)
        obtain ⟨s, rfl⟩ : ∃ s, e = ZipEl.seed s := by
          match e with
          | .seed s => exact ⟨s, rfl⟩
          | .chain f r => simp [isSeed] at hs
          | .snarl es bs => simp [isSeed] at hs
        have hd : 0 ≤ d := hgap (d, ZipEl.seed s) (List.mem_cons_self _ _)
        have hrec := ih (fun x hx => hseed x (List.mem_cons_of_mem _ hx))
          (fun x hx => hgap x (List.mem_cons_of_mem _ hx))
        simp only [dtrChain, distsToRight, crossDist]
        rcases hq : dtrChain rst with ⟨lr, off⟩
        rw [hq] at hrec
        simp only [shiftD, List.map_singleton, List.singleton_append] at hrec ⊢
        constructor
        · refine List.pairwise_cons.2 ⟨?_, hrec.1⟩
          intro x hx
          have := hrec.2 x hx
          omega
        · intro x hx
          rcases List.mem_cons.1 hx with rfl | hx
          · simp only
            omega
          · have := hrec.2 x hx
            omega

/-- Claim C7: for a chain whose sub-elements are all seeds and a
non-negative bound, the distances produced by the right-to-left walker are
non-decreasing in the order they are produced. -/
theorem C7_chain_monotone (first : ZipEl) (rest : List (Int × ZipEl)) (m : Int)
    (hwf : wf (ZipEl.chain first rest) = true) (hm : 0 ≤ m)
    (hfirst : isSeed first = true) (hrest : ∀ x ∈ rest, isSeed x.2 = true) :
    List.Chain' (· ≤ ·)
      ((zip_element_right_to_left_iterator (ZipEl.chain first rest) m).map Prod.snd) := by
  obtain ⟨s, rfl⟩ : ∃ s, first = ZipEl.seed s := by
    match first with
    | .seed s => exact ⟨s, rfl⟩
    | .chain f r => simp [isSeed] at hfirst
    | .snarl es bs => simp [isSeed] at hfirst
  have hgap : ∀ x ∈ rest, 0 ≤ x.1 := by
    intro x hx
    rcases x with ⟨g, e⟩
    exact (wfRest_mem (wf_chain_iff.1 hwf).2.2 hx).1
  have hsort := dtrChain_seed_sorted rest hrest hgap
  rw [rtl_eq _ hwf m hm]
  have hpair : List.Pairwise (fun p q => (q : Nat × Int).2 ≤ p.2)
      (distsToRight (ZipEl.chain (ZipEl.seed s) rest)) := by
    simp only [distsToRight]
    rcases hq : dtrChain rest with ⟨lr, off⟩
    rw [hq] at hsort
    simp only [shiftD, List.map_singleton, List.singleton_append]
    refine List.pairwise_cons.2 ⟨?_, hsort.1⟩
    intro x hx
    have := hsort.2 x hx
    omega
  have hfilter : List.Pairwise (fun p q => (q : Nat × Int).2 ≤ p.2)
      (keepLe m (distsToRight (ZipEl.chain (ZipEl.seed s) rest))) :=
    List.Pairwise.filter _ hpair
  have hrev : List.Pairwise (fun p q => (p : Nat × Int).2 ≤ q.2)
      ((keepLe m (distsToRight (ZipEl.chain (ZipEl.seed s) rest))).reverse) :=
    List.pairwise_reverse.2 hfilter
  exact ((List.pairwise_map).2 hrev).chain'

/-- Witness for C7 on a three-seed chain. -/
theorem C7_chain_monotone_witness :
    wf (ZipEl.chain (ZipEl.seed 0) [(2, ZipEl.seed 1), (3, ZipEl.seed 2)]) = true ∧
      (0 : Int) ≤ 4 ∧
      isSeed (ZipEl.seed 0) = true ∧
      (∀ x ∈ [((2 : Int), ZipEl.seed 1), (3, ZipEl.seed 2)], isSeed x.2 = true) ∧
      List.Chain' (· ≤ ·)
        ((zip_element_right_to_left_iterator
          (ZipEl.chain (ZipEl.seed 0) [(2, ZipEl.seed 1), (3, ZipEl.seed 2)]) 4).map
            Prod.snd) :=
  ⟨by decide, by decide, by decide, by decide,
    C7_chain_monotone (ZipEl.seed 0) [(2, ZipEl.seed 1), (3, ZipEl.seed 2)] 4
      (by decide) (by decide) (by decide) (by decide)⟩

/-! ## Claim C5: early termination on chains, none across snarl entries -/

/-- One right-to-left chain step: produce the nested seeds shifted by the
running distance, then add the crossing distance and the gap token,
recording whether the bound is now exceeded. -/
def rtlStep (m d : Int) (e : ZipEl) (dfr : Int) : List (Nat × Int) × Int × Bool :=
  (emitD m dfr (zip_element_right_to_left_iterator e m), dfr + crossDist e + d,
   decide (m < dfr + crossDist e + d))

theorem rtlChainGo_cons (m d : Int) (e : ZipEl) (rst : List (Int × ZipEl)) :
    rtlChainGo m ((d, e) :: rst) = stepThen (rtlChainGo m rst) (rtlStep m d e) := by
  rcases h : rtlChainGo m rst with ⟨out, dfr, st⟩
  match st with
  | true => simp [rtlChainGo, h, stepThen]
  | false => simp [rtlChainGo, h, stepThen, rtlStep, emitD]

/-- Once the running distance of the chain walk has exceeded the bound on
a right suffix, the sub-elements further to the left contribute nothing. -/
theorem rtlChainGo_stop (m : Int) (pre suf : List (Int × ZipEl))
    (h : (rtlChainGo m suf).2.2 = true) :
    rtlChainGo m (pre ++ suf) = rtlChainGo m suf := by
  induction pre with
  | nil => simp
  | cons a r ih =>
      match a with
      | (d, e) =>
        rw [List.cons_append, rtlChainGo_cons, ih]
        rcases hq : rtlChainGo m suf with ⟨o, dd, st⟩
        rw [hq] at h
        simp only at h
        rw [h, stepThen_stop]

theorem getD_zero_headD {α : Type} (l : List α) (d : α) : l.getD 0 d = l.headD d := by
  cases l <;> rfl

theorem getD_succ_cons {α : Type} (a : α) (t : List α) (i : Nat) (d : α) :
    (a :: t).getD (i + 1) d = t.getD i d := rfl

theorem drop_one_getD {α : Type} (l : List α) (i : Nat) (d : α) :
    (l.drop 1).getD i d = l.getD (i + 1) d := by
  cases l <;> rfl

/-- Every chain entry of a snarl is tried: a bounded nested seed of entry
`i` is produced with its distance increased by the `i`-th record of `js`,
whatever the other entries contain. -/
theorem rtlSnarlGo_mem (m : Int) (l : List (List Int × ZipEl)) (js : List Int) (i : Nat)
    (hi : i < l.length) (s : Nat) (d : Int)
    (hmem : (s, d) ∈ zip_element_right_to_left_iterator (l.getD i ([], ZipEl.seed 0)).2 m)
    (hle : d + js.getD i 0 ≤ m) :
    (s, d + js.getD i 0) ∈ rtlSnarlGo m l js := by
  induction l generalizing i js with
  | nil => simp at hi
  | cons a rst ih =>
      match a with
      | (ds, e) =>
        match i with
        | 0 =>
            simp only [rtlSnarlGo]
            refine List.mem_append.2 (Or.inr ?_)
            rw [emitD_eq_filterMap]
            refine mem_emitD.2 ⟨(s, d), ?_, ?_, ?_⟩
            · simpa using hmem
            · rw [← getD_zero_headD js 0]; exact hle
            · rw [← getD_zero_headD js 0]
        | i + 1 =>
            simp only [rtlSnarlGo]
            refine List.mem_append.2 (Or.inl ?_)
            have := ih (js.drop 1) i (by simpa using hi) (by simpa using hmem)
              (by rw [drop_one_getD]; exact hle)
            rw [drop_one_getD] at this
            exact this

/-- Claim C5: in the right-to-left walker, once the running distance of a
chain walk has exceeded the bound on a right suffix of the chain, no seed
of any sub-element further left is produced; whereas a snarl walk tries
every chain entry: every bounded seed of entry `i`, at its nested distance
plus boundary-record entry `i+1`, is produced regardless of the other
entries. -/
theorem C5_termination_asymmetry (m : Int) (first : ZipEl)
    (pre suf : List (Int × ZipEl)) (entries : List (List Int × ZipEl)) (bs : List Int)
    (i s : Nat) (d : Int) :
    ((rtlChainGo m suf).2.2 = true →
      zip_element_right_to_left_iterator (ZipEl.chain first (pre ++ suf)) m =
        (rtlChainGo m suf).1) ∧
    (i < entries.length →
      (s, d) ∈ zip_element_right_to_left_iterator (entries.getD i ([], ZipEl.seed 0)).2 m →
      d + bs.getD (i + 1) 0 ≤ m →
      (s, d + bs.getD (i + 1) 0) ∈
        zip_element_right_to_left_iterator (ZipEl.snarl entries bs) m) := by
  constructor
  · intro h
    simp only [zip_element_right_to_left_iterator]
    rw [rtlChainGo_stop m pre suf h]
    rcases hq : rtlChainGo m suf with ⟨o, dd, st⟩
    rw [hq] at h
    simp only at h
    rw [h, if_pos rfl]
  · intro hi hmem hle
    simp only [zip_element_right_to_left_iterator]
    have := rtlSnarlGo_mem m entries (bs.drop 1) i hi s d
      (by simpa using hmem) (by rw [drop_one_getD]; exact hle)
    rw [drop_one_getD] at this
    exact this

/-- Witness for C5: a chain whose rightmost gap exceeds the bound, and a
one-entry snarl. -/
theorem C5_termination_asymmetry_witness :
    (rtlChainGo 10 [((20 : Int), ZipEl.seed 5)]).2.2 = true ∧
    zip_element_right_to_left_iterator
      (ZipEl.chain (ZipEl.seed 9) ([((1 : Int), ZipEl.seed 7)] ++ [((20 : Int), ZipEl.seed 5)])) 10 =
      (rtlChainGo 10 [((20 : Int), ZipEl.seed 5)]).1 ∧
    ((1 : Nat), (0 : Int) + (([9, 4] : List Int).getD 1 0)) ∈
      zip_element_right_to_left_iterator
        (ZipEl.snarl [([3], ZipEl.chain (ZipEl.seed 1) [])] [9, 4]) 10 := by
  refine ⟨by decide, ?_, ?_⟩
  · exact (C5_termination_asymmetry 10 (ZipEl.seed 9) [((1 : Int), ZipEl.seed 7)]
      [((20 : Int), ZipEl.seed 5)] [] [] 0 0 0).1 (by decide)
  · exact (C5_termination_asymmetry 10 (ZipEl.seed 9) [] []
      [([3], ZipEl.chain (ZipEl.seed 1) [])] [9, 4] 0 1 0).2 (by decide) (by decide)
      (by decide)

/-! ## Claim C2: what is added when stepping out of a snarl -/

/-- Modelled from the spec's words for claim C2 (§4.3 of the design):
identical to `reachGo` except that, after the preceding chains of a snarl
container are exhausted, the snarl's boundary-record entry 0 (the minimum
right-boundary-to-left-boundary crossing distance, `boundary.headD 0`
here) is added to the accumulated distance — where the source instead adds
chain entry `j`'s first distance (`element[j][0]`, the distance from chain
`j`'s left side to the snarl's left boundary). -/
def reachGoClaimC2 (max_distance : Int) (path : ZPath) (dfr : Int) :
    List (Nat × Int) × Int × Bool :=
  match path with
  | [] => ([], dfr, false)
  | (el, j) :: rest =>
      match el with
      | .seed _ => ([], dfr, true)
      | .snarl entries bs =>
          let ds := (entries.getD j ([], .seed 0)).1
          let out := reachSnarlGo max_distance dfr (entries.take j) (ds.drop 1)
          let dfr1 := dfr + bs.headD 0
          if max_distance < dfr1 then (out, dfr1, true)
          else
            match reachGoClaimC2 max_distance rest dfr1 with
            | (out2, dfr2, st) => (out ++ out2, dfr2, st)
      | .chain first restL =>
          match reachChainGo max_distance (chainPre first restL (j / 2)) dfr with
          | (out, dfr1, stopped) =>
            if stopped then (out, dfr1, true)
            else
              match reachGoClaimC2 max_distance rest dfr1 with
              | (out2, dfr2, st) => (out ++ out2, dfr2, st)

/-- The walker of claim C2's wording. -/
def zip_reachable_iterator_claimC2 (contained_elements : ZPath) (max_distance : Int) :
    List (Nat × Int) :=
  (reachGoClaimC2 max_distance contained_elements 0).1

def exSnarlC2 : ZipEl := .snarl [([2], .chain (.seed 1) [])] [9, 0]
def exTreeC2 : ZipEl := .chain (.seed 0) [(1, exSnarlC2)]

/-- The containment path of seed `1` in `exTreeC2`. -/
def exPathC2 : ZPath := [(ZipEl.chain (ZipEl.seed 1) [], 0), (exSnarlC2, 0), (exTreeC2, 2)]

/-- Counterexample to claim C2 as stated: on the containment path of a
seed inside a snarl whose entry-0 first distance (2) differs from its
boundary-record entry 0 (9), the source walker continues past the snarl
and reports the outer seed at distance 3, while the walker that adds the
boundary-record entry 0 stops the walk and reports nothing. -/
theorem C2_counterexample :
    zip_reachable_iterator exPathC2 5 = [(0, 3)] ∧
    zip_reachable_iterator_claimC2 exPathC2 5 = [] ∧
    zip_reachable_iterator exPathC2 5 ≠ zip_reachable_iterator_claimC2 exPathC2 5 := by
  refine ⟨by decide, by decide, by decide⟩

/-- Claim C2, amended: at a snarl container, the outward walker first
produces the seeds of the preceding chains, then adds chain entry `j`'s
first distance (`element[j][0]`, the distance from the seed's chain's left
side to the snarl's left boundary) — not the boundary record's entry 0 —
to the accumulated distance; the whole walk stops, producing no further
seeds, exactly when the bound is then exceeded, and otherwise continues
with the increased distance. -/
theorem C2_amended_snarl_step (m : Int) (entries : List (List Int × ZipEl))
    (bs : List Int) (j : Nat) (rest : ZPath) (dfr : Int) :
    (reachGo m ((ZipEl.snarl entries bs, j) :: rest) dfr).1 =
      (reachGo m [(ZipEl.snarl entries bs, j)] dfr).1 ++
        (if m < dfr + ((entries.getD j ([], ZipEl.seed 0)).1).headD 0 then []
         else (reachGo m rest (dfr + ((entries.getD j ([], ZipEl.seed 0)).1).headD 0)).1) ∧
    (reachGo m [(ZipEl.snarl entries bs, j)] dfr).2.1 =
      dfr + ((entries.getD j ([], ZipEl.seed 0)).1).headD 0 ∧
    (reachGo m [(ZipEl.snarl entries bs, j)] dfr).2.2 =
      decide (m < dfr + ((entries.getD j ([], ZipEl.seed 0)).1).headD 0) := by
  by_cases hc : m < dfr + ((entries.getD j ([], ZipEl.seed 0)).1).headD 0
  · rw [reachGo_snarl_cons, reachGo_snarl_cons, decide_eq_true hc, stepThen_stop,
      stepThen_stop, if_pos hc]
    exact ⟨by simp, rfl, rfl⟩
  · rw [reachGo_snarl_cons, reachGo_snarl_cons, decide_eq_false hc, stepThen_go,
      stepThen_go, if_neg hc, reachGo_nil]
    exact ⟨by simp, by simp, rfl⟩

/-! ## Claim C6: negative bound -/

/-- Counterexample to claim C6 as stated: the right-to-left walker applied
to a bare seed produces the seed at distance 0 even for a negative bound
(source lines 84–86 place no guard on the seed case). -/
theorem C6_counterexample :
    zip_element_right_to_left_iterator (ZipEl.seed 0) (-1) = [(0, 0)] ∧
    zip_element_right_to_left_iterator (ZipEl.seed 0) (-1) ≠ [] := by
  refine ⟨by decide, by decide⟩

theorem rtl_chain_mem_le (m : Int) (first : ZipEl) (rest : List (Int × ZipEl)) :
    ∀ p ∈ zip_element_right_to_left_iterator (ZipEl.chain first rest) m, p.2 ≤ m := by
  intro p hp
  simp only [zip_element_right_to_left_iterator] at hp
  rcases hq : rtlChainGo m rest with ⟨out, dfr, stopped⟩
  rw [hq] at hp
  have hgo := rtlChainGo_mem_le m rest
  rw [hq] at hgo
  match stopped with
  | true =>
      simp only [if_pos] at hp
      exact hgo p hp
  | false =>
      simp only [Bool.false_eq_true, if_false] at hp
      rcases List.mem_append.1 hp with hin | hin
      · exact hgo p hin
      · rw [emitD_eq_filterMap] at hin
        rcases mem_emitD.1 hin with ⟨q, -, hle, rfl⟩
        exact hle

theorem getD_mem_of_lt {α : Type} {l : List α} {n : Nat} (h : n < l.length) (d : α) :
    l.getD n d ∈ l := by
  induction l generalizing n with
  | nil => simp at h
  | cons a t ih =>
      match n with
      | 0 => exact List.mem_cons_self a t
      | n + 1 => exact List.mem_cons_of_mem a (ih (by simpa using h))

theorem reachSnarlGo_nonneg (m dfr : Int) (hdfr : 0 ≤ dfr)
    (l : List (List Int × ZipEl)) (hl : ∀ p ∈ l, wf p.2 = true) (js : List Int)
    (hjs : ∀ x ∈ js, 0 ≤ x) : ∀ p ∈ reachSnarlGo m dfr l js, 0 ≤ p.2 := by
  induction l generalizing js with
  | nil => intro p hp; simp [reachSnarlGo] at hp
  | cons a rst ih =>
      match a with
      | (ds, e) =>
        intro p hp
        simp only [reachSnarlGo] at hp
        rcases List.mem_append.1 hp with hin | hin
        · exact ih (fun q hq => hl q (List.mem_cons_of_mem _ hq)) (js.drop 1)
            (fun x hx => hjs x (List.mem_of_mem_drop hx)) p hin
        · rw [emitD_eq_filterMap2] at hin
          rcases mem_emitD.1 hin with ⟨q, hq, -, rfl⟩
          have h1 := rtl_nonneg e (hl (ds, e) (List.mem_cons_self _ _)) m q hq
          have h2 : 0 ≤ js.headD 0 := headD_nonneg hjs
          simp only
          omega

/-- The dists record of the `j`-th entry of a well-formed snarl is
non-negative (vacuously when `j` is out of range). -/
theorem entry_dists_nonneg {entries : List (List Int × ZipEl)} {bs : List Int}
    (h : wf (ZipEl.snarl entries bs) = true) (j : Nat) :
    ∀ x ∈ (entries.getD j ([], ZipEl.seed 0)).1, 0 ≤ x := by
  rcases wf_snarl_iff.1 h with ⟨-, -, hes⟩
  by_cases hj : j < entries.length
  · rcases hq : entries.getD j ([], ZipEl.seed 0) with ⟨ds, e⟩
    have hmem : (ds, e) ∈ entries := hq ▸ getD_mem_of_lt hj _
    exact (wfEntries_mem hes hmem).2
  · rw [List.getD_eq_default _ _ (by omega)]
    simp

/-- Preceding-sub-element items handed to the chain branch of the outward
walker carry non-negative distance tokens when the chain is well-formed. -/
theorem chainPre_gaps_nonneg {first : ZipEl} {restL : List (Int × ZipEl)}
    (h : wf (ZipEl.chain first restL) = true) (c : Nat) :
    ∀ x ∈ chainPre first restL c, 0 ≤ x.1 := by
  rcases wf_chain_iff.1 h with ⟨-, -, hr⟩
  intro x hx
  have := List.of_mem_zip hx
  rcases this with ⟨h1, -⟩
  rw [List.map_take] at h1
  rcases List.mem_map.1 (List.mem_of_mem_take h1) with ⟨⟨g, e⟩, hge, hEq⟩
  have := (wfRest_mem hr hge).1
  simp only at hEq
  omega

theorem reachChainGo_neg {m : Int} (hm : m < 0) (items : List (Int × ZipEl)) (dfr : Int)
    (hdfr : 0 ≤ dfr) (hg : ∀ x ∈ items, 0 ≤ x.1) :
    (reachChainGo m items dfr).1 = [] ∧
      ((reachChainGo m items dfr).2.2 = false →
        (reachChainGo m items dfr).2.1 = dfr ∧ items = []) := by
  induction items with
  | nil => exact ⟨rfl, fun _ => ⟨rfl, rfl⟩⟩
  | cons a rst ih =>
      match a with
      | (g, e) =>
        have hge : 0 ≤ g := hg (g, e) (List.mem_cons_self _ _)
        have hrec := ih (fun x hx => hg x (List.mem_cons_of_mem _ hx))
        rw [reachChainGo_cons]
        rcases hq : reachChainGo m rst dfr with ⟨out, dfr1, st⟩
        rw [hq] at hrec
        match st with
        | true =>
            rw [stepThen_stop]
            exact ⟨hrec.1, by simp⟩
        | false =>
            have hout : out = [] := hrec.1
            have hde : dfr1 = dfr := (hrec.2 rfl).1
            rw [stepThen_go]
            have hc : m < dfr1 + g := by omega
            rw [chainStep, if_pos hc]
            refine ⟨?_, by simp⟩
            simp [hout]

theorem reachGo_neg {m : Int} (hm : m < 0) (path : ZPath)
    (hwf : ∀ x ∈ path, wf x.1 = true) (dfr : Int) (hdfr : 0 ≤ dfr) :
    (reachGo m path dfr).1 = [] := by
  induction path generalizing dfr with
  | nil => rfl
  | cons a rest ih =>
      match a with
      | (el, j) =>
        match el with
        | .seed s => rfl
        | .snarl entries bs =>
            have hwfel : wf (ZipEl.snarl entries bs) = true :=
              hwf (ZipEl.snarl entries bs, j) (List.mem_cons_self _ _)
            have hds := entry_dists_nonneg hwfel j
            have hout : reachSnarlGo m dfr (entries.take j)
                (((entries.getD j ([], ZipEl.seed 0)).1).drop 1) = [] := by
              rw [List.eq_nil_iff_forall_not_mem]
              intro p hp
              have h1 := reachSnarlGo_mem_le m dfr (entries.take j)
                (((entries.getD j ([], ZipEl.seed 0)).1).drop 1) p hp
              have h2 := reachSnarlGo_nonneg m dfr hdfr (entries.take j)
                (fun q hq =>
                  (wfEntries_mem (wf_snarl_iff.1 hwfel).2.2 (List.mem_of_mem_take hq)).1)
                (((entries.getD j ([], ZipEl.seed 0)).1).drop 1)
                (fun x hx => hds x (List.mem_of_mem_drop hx)) p hp
              omega
            have hc : m < dfr + ((entries.getD j ([], ZipEl.seed 0)).1).headD 0 := by
              have := headD_nonneg hds
              omega
            rw [reachGo_snarl_cons, decide_eq_true hc, stepThen_stop]
            exact hout
        | .chain first restL =>
            have hwfel : wf (ZipEl.chain first restL) = true :=
              hwf (ZipEl.chain first restL, j) (List.mem_cons_self _ _)
            have hneg := reachChainGo_neg hm (chainPre first restL (j / 2)) dfr hdfr
              (chainPre_gaps_nonneg hwfel (j / 2))
            rw [reachGo_chain_cons]
            rcases hq : reachChainGo m (chainPre first restL (j / 2)) dfr
              with ⟨out, dfr1, st⟩
            rw [hq] at hneg
            match st with
            | true =>
                rw [stepThen_stop]
                exact hneg.1
            | false =>
                have hout : out = [] := hneg.1
                have hde : dfr1 = dfr := (hneg.2 rfl).1
                rw [stepThen_go]
                simp only [hout, List.nil_append, hde]
                exact ih (fun x hx => hwf x (List.mem_cons_of_mem _ hx)) dfr hdfr

mutual
theorem ltr_pathWF (e : ZipEl) (h : wf e = true) :
    ∀ p ∈ zip_element_left_to_right_iterator e, ∀ x ∈ p.2, wf x.1 = true := by
  match e with
  | .seed s =>
      intro p hp x hx
      simp only [zip_element_left_to_right_iterator, List.mem_singleton] at hp
      rw [hp] at hx
      simp at hx
  | .chain first rest =>
      intro p hp x hx
      rcases wf_chain_iff.1 h with ⟨-, h1, h2⟩
      simp only [zip_element_left_to_right_iterator] at hp
      rcases List.mem_append.1 hp with hin | hin
      · rcases List.mem_map.1 hin with ⟨q, hq, rfl⟩
        simp only at hx
        rcases List.mem_append.1 hx with hx | hx
        · exact ltr_pathWF first h1 q hq x hx
        · rcases List.mem_singleton.1 hx with rfl
          exact h
      · exact ltrChainGo_pathWF (ZipEl.chain first rest) h 2 rest h2 p hin x hx
  | .snarl entries bs =>
      intro p hp x hx
      rcases wf_snarl_iff.1 h with ⟨-, -, hes⟩
      simp only [zip_element_left_to_right_iterator] at hp
      exact ltrSnarlGo_pathWF (ZipEl.snarl entries bs) h 0 entries 1 hes p hp x hx
termination_by sizeOf e
decreasing_by all_goals (simp_wf <;> omega)

theorem ltrChainGo_pathWF (self : ZipEl) (hself : wf self = true) (i : Nat)
    (l : List (Int × ZipEl)) (hl : wfRest l = true) :
    ∀ p ∈ ltrChainGo self i l, ∀ x ∈ p.2, wf x.1 = true := by
  match l with
  | [] => intro p hp; simp [ltrChainGo] at hp
  | (d, e) :: rst =>
      intro p hp x hx
      rcases wfRest_cons_iff.1 hl with ⟨-, -, hwe, hr⟩
      simp only [ltrChainGo] at hp
      rcases List.mem_append.1 hp with hin | hin
      · rcases List.mem_map.1 hin with ⟨q, hq, rfl⟩
        simp only at hx
        rcases List.mem_append.1 hx with hx | hx
        · exact ltr_pathWF e hwe q hq x hx
        · rcases List.mem_singleton.1 hx with rfl
          exact hself
      · exact ltrChainGo_pathWF self hself (i + 2) rst hr p hin x hx
termination_by sizeOf l
decreasing_by all_goals (simp_wf <;> omega)

theorem ltrSnarlGo_pathWF (self : ZipEl) (hself : wf self = true) (i : Nat)
    (l : List (List Int × ZipEl)) (k : Nat) (hl : wfEntries l k = true) :
    ∀ p ∈ ltrSnarlGo self i l, ∀ x ∈ p.2, wf x.1 = true := by
  match l with
  | [] => intro p hp; simp [ltrSnarlGo] at hp
  | (ds, e) :: rst =>
      intro p hp x hx
      rcases wfEntries_cons_iff.1 hl with ⟨-, -, -, hwe, hr⟩
      simp only [ltrSnarlGo] at hp
      rcases List.mem_append.1 hp with hin | hin
      · rcases List.mem_map.1 hin with ⟨q, hq, rfl⟩
        simp only at hx
        rcases List.mem_append.1 hx with hx | hx
        · exact ltr_pathWF e hwe q hq x hx
        · rcases List.mem_singleton.1 hx with rfl
          exact hself
      · exact ltrSnarlGo_pathWF self hself (i + 1) rst (k + 1) hr p hin x hx
termination_by sizeOf l
decreasing_by all_goals (simp_wf <;> omega)
end

/-- Claim C6, amended: for a negative bound every query operation produces
the empty sequence — the right-to-left walker on any well-formed chain or
snarl, the outward walker on any containment path whose containers are
well-formed, and the all-pairs enumerator on any well-formed tree — except
that the right-to-left walker applied to a bare seed still produces the
seed at distance 0. -/
theorem C6_negative_bound (m : Int) (hm : m < 0) (first : ZipEl)
    (rest : List (Int × ZipEl)) (entries : List (List Int × ZipEl)) (bs : List Int)
    (t : ZipEl) (path : ZPath) (hwfc : wf (ZipEl.chain first rest) = true)
    (hwfs : wf (ZipEl.snarl entries bs) = true) (hwft : wf t = true)
    (hpath : ∀ x ∈ path, wf x.1 = true) :
    zip_element_right_to_left_iterator (ZipEl.chain first rest) m = [] ∧
    zip_element_right_to_left_iterator (ZipEl.snarl entries bs) m = [] ∧
    zip_reachable_iterator path m = [] ∧
    zip_element_pairs_iterator t m = [] := by
  refine ⟨?_, ?_, ?_, ?_⟩
  · rw [List.eq_nil_iff_forall_not_mem]
    intro p hp
    have h1 := rtl_chain_mem_le m first rest p hp
    have h2 := rtl_nonneg (ZipEl.chain first rest) hwfc m p hp
    omega
  · rw [List.eq_nil_iff_forall_not_mem]
    intro p hp
    have h1 := rtlSnarlGo_mem_le m entries (bs.drop 1) p hp
    have h2 := rtl_nonneg (ZipEl.snarl entries bs) hwfs m p hp
    omega
  · exact reachGo_neg hm path hpath 0 (le_refl 0)
  · rw [List.eq_nil_iff_forall_not_mem]
    intro tr htr
    rcases List.mem_flatMap.1 htr with ⟨p, hpmem, hin⟩
    rcases List.mem_map.1 hin with ⟨q, hq, rfl⟩
    have hpw : ∀ x ∈ p.2, wf x.1 = true := ltr_pathWF t hwft p hpmem
    have : (reachGo m p.2 0).1 = [] := reachGo_neg hm p.2 hpw 0 (le_refl 0)
    rw [zip_reachable_iterator, this] at hq
    simp at hq

/-- Witness for the amended C6 at bound `-1` on the example tree. -/
theorem C6_negative_bound_witness :
    (-1 : Int) < 0 ∧ wf exTree = true ∧ wf exSnarl2 = true ∧
      (zip_element_right_to_left_iterator exTree (-1) = [] ∧
        zip_element_right_to_left_iterator exSnarl2 (-1) = [] ∧
        zip_reachable_iterator [(exTree, 4)] (-1) = [] ∧
        zip_element_pairs_iterator exTree (-1) = []) := by
  refine ⟨by decide, by decide, by decide, ?_⟩
  have h := C6_negative_bound (-1) (by decide) (ZipEl.seed 0)
    [(5, exSnarl1), (10, ZipEl.seed 2), (4, ZipEl.seed 3), (3, exSnarl2),
      (7, ZipEl.seed 8), (2, ZipEl.seed 9)]
    [([2], exChainE), ([4, 2], ZipEl.chain (ZipEl.seed 7) [])] [1, 2, 1]
    exTree [(exTree, 4)] (by decide) (by decide) (by decide) (by decide)
  exact h

/-! ## Indexed access to the enumeration and its semantics -/

theorem ltr_length (t : ZipEl) :
    (zip_element_left_to_right_iterator t).length = (seedsOf t).length := by
  rw [← ltr_fst t, List.length_map]

theorem ltrSem_length (t : ZipEl) : (ltrSem t).length = (seedsOf t).length := by
  rw [← ltrSem_fst t, List.length_map]

theorem ltrSem_prec_fst (t : ZipEl) (n : Nat) (hn : n < (ltrSem t).length) :
    (((ltrSem t).get ⟨n, hn⟩).2.1).map Prod.fst = ((seedsOf t).take n).reverse := by
  have h := PrecOK_get (ltrSem_precOK t) n hn
  simpa [ltrSem_fst t] using h

theorem ltr_get_fst (t : ZipEl) (n : Nat)
    (hn : n < (zip_element_left_to_right_iterator t).length) :
    ((zip_element_left_to_right_iterator t).get ⟨n, hn⟩).1 =
      (seedsOf t).get ⟨n, by rw [← ltr_length t]; exact hn⟩ := by
  have h := congrArg (fun l => l.getD n 0) (ltr_fst t)
  simp only at h
  rw [List.getD_eq_getElem _ _ (by simpa using hn),
    List.getD_eq_getElem _ _ (by rw [← ltr_length t]; exact hn),
    List.getElem_map] at h
  exact h

/-- For a nonnegative bound, the outward walk over the `n`-th containment
path produces exactly the `n`-th semantic preceding-seed record, filtered
by the bound. -/
theorem reach_eq_keepLe (t : ZipEl) (hwf : wf t = true) (m : Int) (hm : 0 ≤ m)
    (n : Nat) (hn : n < (zip_element_left_to_right_iterator t).length)
    (hn' : n < (ltrSem t).length) :
    zip_reachable_iterator ((zip_element_left_to_right_iterator t).get ⟨n, hn⟩).2 m =
      keepLe m (((ltrSem t).get ⟨n, hn'⟩).2.1) := by
  have hrel := ltr_rel t hwf
  rw [List.forall₂_iff_get] at hrel
  have h := hrel.2 n hn hn'
  rcases hL : (zip_element_left_to_right_iterator t).get ⟨n, hn⟩ with ⟨s, path⟩
  rcases hS : (ltrSem t).get ⟨n, hn'⟩ with ⟨u, prec, dl⟩
  rw [hL, hS] at h
  rcases SeedRel_elim h with ⟨-, -, -, hbeh⟩
  have hr := hbeh m 0 hm (le_refl 0)
  rcases hq : reachGo m path 0 with ⟨o, d, st⟩
  rw [hq] at hr
  have ho : o = keepLe m (shiftD 0 prec) := (ResultIs_elim hr).1
  rw [shiftD_zero] at ho
  show (reachGo m path 0).1 = keepLe m prec
  rw [hq]
  exact ho

/-- Whatever the bound, every payload the outward walk reports for the
`n`-th seed is one of the first `n` seed payloads. -/
theorem reach_payload_earlier (t : ZipEl) (hwf : wf t = true) (m : Int)
    (n : Nat) (hn : n < (zip_element_left_to_right_iterator t).length) :
    ∀ q ∈ zip_reachable_iterator
        ((zip_element_left_to_right_iterator t).get ⟨n, hn⟩).2 m,
      q.1 ∈ (seedsOf t).take n := by
  intro q hq
  rcases le_or_lt 0 m with hm | hm
  · have hn' : n < (ltrSem t).length := by
      rw [ltrSem_length, ← ltr_length]; exact hn
    rw [reach_eq_keepLe t hwf m hm n hn hn'] at hq
    have hqp : q ∈ ((ltrSem t).get ⟨n, hn'⟩).2.1 := (mem_keepLe.1 hq).1
    have hmem : q.1 ∈ (((ltrSem t).get ⟨n, hn'⟩).2.1).map Prod.fst :=
      List.mem_map.2 ⟨q, hqp, rfl⟩
    rw [ltrSem_prec_fst t n hn'] at hmem
    exact List.mem_reverse.1 hmem
  · have hpw : ∀ x ∈ ((zip_element_left_to_right_iterator t).get ⟨n, hn⟩).2,
        wf x.1 = true :=
      ltr_pathWF t hwf _ (List.get_mem _ _ hn)
    have hnil : zip_reachable_iterator
        ((zip_element_left_to_right_iterator t).get ⟨n, hn⟩).2 m = [] :=
      reachGo_neg hm _ hpw 0 (le_refl 0)
    rw [hnil] at hq
    cases hq

/-- Claim C8: the all-pairs enumerator never pairs a seed with itself.
Every reachable seed reported for the `n`-th seed is a strictly earlier
seed occurrence (one of the first `n` payloads), so whenever the tree's
seed payloads are pairwise distinct, every emitted triple has distinct
first and second components. -/
theorem C8_no_self_pairs (t : ZipEl) (m : Int) (hwf : wf t = true) :
    (∀ n (hn : n < (zip_element_left_to_right_iterator t).length),
        ∀ q ∈ zip_reachable_iterator
            ((zip_element_left_to_right_iterator t).get ⟨n, hn⟩).2 m,
          q.1 ∈ (seedsOf t).take n) ∧
    ((seedsOf t).Nodup →
      ∀ tr ∈ zip_element_pairs_iterator t m, tr.1 ≠ tr.2.1) := by
  refine ⟨reach_payload_earlier t hwf m, ?_⟩
  intro hnd tr htr
  rcases List.mem_flatMap.1 htr with ⟨p, hp, hin⟩
  rcases List.mem_map.1 hin with ⟨q, hq, rfl⟩
  rcases List.getElem_of_mem hp with ⟨n, hn, hpn⟩
  have hq' : q ∈ zip_reachable_iterator
      ((zip_element_left_to_right_iterator t).get ⟨n, hn⟩).2 m := by
    show q ∈ zip_reachable_iterator
      ((zip_element_left_to_right_iterator t)[n]).2 m
    rw [hpn]; exact hq
  have hqt := reach_payload_earlier t hwf m n hn q hq'
  rcases List.getElem_of_mem hqt with ⟨k, hk, hqk⟩
  have hkn : k < n := by
    simp only [List.length_take] at hk; omega
  have hkl : k < (seedsOf t).length := by
    simp only [List.length_take] at hk; omega
  have hnl : n < (seedsOf t).length := by rw [← ltr_length t]; exact hn
  have hqk2 : (seedsOf t).get ⟨k, hkl⟩ = q.1 := by
    rw [← hqk]
    exact (List.getElem_take ..).symm
  have hp1 : p.1 = (seedsOf t).get ⟨n, hnl⟩ := by
    rw [← hpn]
    exact ltr_get_fst t n hn
  simp only
  intro hcon
  have hgets : (seedsOf t).get ⟨n, hnl⟩ = (seedsOf t).get ⟨k, hkl⟩ := by
    rw [hqk2, ← hcon, hp1]
  have := (List.Nodup.get_inj_iff hnd).1 hgets
  have hnk : n = k := congrArg Fin.val this
  omega

/-- Witness for C8 on the example tree at bound 15. -/
theorem C8_no_self_pairs_witness :
    wf exTree = true ∧ (seedsOf exTree).Nodup ∧
      ∀ tr ∈ zip_element_pairs_iterator exTree 15, tr.1 ≠ tr.2.1 := by
  refine ⟨by decide, by decide, ?_⟩
  exact (C8_no_self_pairs exTree 15 (by decide)).2 (by decide)

/-! ## Counting emitted pairs -/

/-- The triples the all-pairs enumerator derives from one enumeration
entry. -/
def pairsOf (m : Int) (p : Nat × ZPath) : List (Nat × Nat × Int) :=
  (zip_reachable_iterator p.2 m).map (fun q => (p.1, q.1, q.2))

theorem pairs_eq_flatMap (t : ZipEl) (m : Int) :
    zip_element_pairs_iterator t m =
      (zip_element_left_to_right_iterator t).flatMap (pairsOf m) := rfl

theorem getD_map_fst {l : List (Nat × Int)} {k : Nat} (h : k < l.length) :
    (l.map Prod.fst).getD k 0 = (l.getD k (0, 0)).1 := by
  rw [List.getD_eq_getElem _ _ (by simpa using h), List.getD_eq_getElem _ _ h,
    List.getElem_map]

theorem getD_reverse_take {α : Type} (l : List α) (d : α) (i j : Nat)
    (hij : i < j) (hj : j ≤ l.length) :
    ((l.take j).reverse).getD (j - 1 - i) d = l.getD i d := by
  have hlt : (l.take j).length = j := by rw [List.length_take]; omega
  rw [List.getD_eq_getElem?_getD, List.getD_eq_getElem?_getD,
    List.getElem?_reverse (by rw [hlt]; omega), hlt]
  have hieq : j - 1 - (j - 1 - i) = i := by omega
  rw [hieq, List.getElem?_take, if_pos hij]

/-- In a list of payload–distance records with pairwise distinct payloads,
exactly one in-bound record carries a given payload whose record is in
bound. -/
theorem countP_eq_one_of_nodup {α : Type} [DecidableEq α] {l : List α}
    (hnd : l.Nodup) {a : α} (ha : a ∈ l) :
    l.countP (fun b => decide (b = a)) = 1 := by
  induction l with
  | nil => cases ha
  | cons x xs ih =>
      rw [List.countP_cons]
      rcases List.mem_cons.1 ha with rfl | hmem
      · have hx : a ∉ xs := (List.nodup_cons.1 hnd).1
        have h0 : xs.countP (fun b => decide (b = a)) = 0 :=
          List.countP_eq_zero.2 (fun b hb hbe => by
            rw [decide_eq_true_iff] at hbe
            exact hx (hbe ▸ hb))
        simp [h0]
      · have h1 := ih (List.nodup_cons.1 hnd).2 hmem
        have hxa : ¬ x = a := by
          intro hxa
          exact (List.nodup_cons.1 hnd).1 (hxa ▸ hmem)
        simp [h1, hxa]

theorem countP_keepLe_fst_one {l : List (Nat × Int)} {x : Nat} {d m : Int}
    (hnd : (l.map Prod.fst).Nodup) (hmem : (x, d) ∈ l) (hdm : d ≤ m) :
    (keepLe m l).countP (fun q => decide (q.1 = x)) = 1 := by
  rw [keepLe, List.countP_filter]
  have hcong : ∀ q ∈ l,
      (decide (q.1 = x) && decide (q.2 ≤ m)) = true ↔ decide (q = (x, d)) = true := by
    intro q hq
    rw [Bool.and_eq_true, decide_eq_true_iff, decide_eq_true_iff, decide_eq_true_iff]
    constructor
    · intro h
      exact List.inj_on_of_nodup_map hnd hq hmem h.1
    · intro hqe
      subst hqe
      exact ⟨rfl, hdm⟩
  rw [List.countP_congr hcong]
  exact countP_eq_one_of_nodup (List.Nodup.of_map _ hnd) hmem

/-- An enumeration entry other than the `j`-th contributes no triple whose
payload pair is the (`i`,`j`) pair in either orientation. -/
theorem pairsOf_countP_zero (t : ZipEl) (m : Int) (hwf : wf t = true)
    (hnd : (seedsOf t).Nodup) (i j : Nat) (hij : i < j)
    (hj : j < (seedsOf t).length) (n : Nat)
    (hn : n < (zip_element_left_to_right_iterator t).length) (hnj : n ≠ j) :
    (pairsOf m ((zip_element_left_to_right_iterator t).get ⟨n, hn⟩)).countP
      (fun tr =>
        decide ((tr.1 = (seedsOf t).getD j 0 ∧ tr.2.1 = (seedsOf t).getD i 0) ∨
          (tr.1 = (seedsOf t).getD i 0 ∧ tr.2.1 = (seedsOf t).getD j 0))) = 0 := by
  have hi : i < (seedsOf t).length := by omega
  have hnl : n < (seedsOf t).length := by rw [← ltr_length t]; exact hn
  have hs1 : (seedsOf t).getD j 0 = (seedsOf t).get ⟨j, hj⟩ :=
    List.getD_eq_getElem _ _ hj
  have hs2 : (seedsOf t).getD i 0 = (seedsOf t).get ⟨i, hi⟩ :=
    List.getD_eq_getElem _ _ hi
  refine List.countP_eq_zero.2 ?_
  intro tr htr
  rcases List.mem_map.1 htr with ⟨q, hq, rfl⟩
  intro hP
  rw [decide_eq_true_iff] at hP
  have hp1 := ltr_get_fst t n hn
  have hq1 := reach_payload_earlier t hwf m n hn q hq
  rcases List.getElem_of_mem hq1 with ⟨k, hk, hqk⟩
  have hkn : k < n := by simp only [List.length_take] at hk; omega
  have hkl : k < (seedsOf t).length := by omega
  have hqk2 : (seedsOf t).get ⟨k, hkl⟩ = q.1 := by
    rw [← hqk]; exact (List.getElem_take ..).symm
  rcases hP with ⟨ha, hb⟩ | ⟨ha, hb⟩
  · rw [hp1, hs1] at ha
    have := congrArg Fin.val ((List.Nodup.get_inj_iff hnd).1 ha)
    simp only at this
    omega
  · rw [hp1, hs2] at ha
    have hni : n = i := by
      have := congrArg Fin.val ((List.Nodup.get_inj_iff hnd).1 ha)
      simpa using this
    rw [hs1] at hb
    have hgets : (seedsOf t).get ⟨k, hkl⟩ = (seedsOf t).get ⟨j, hj⟩ := by
      rw [hqk2]; exact hb
    have := congrArg Fin.val ((List.Nodup.get_inj_iff hnd).1 hgets)
    simp only at this
    omega

/-- Claim C1 (completeness): for a well-formed tree with pairwise distinct
seed payloads, a nonnegative bound, and seed positions `i < j` whose
encoded distance `d = seedDist t i j` is within the bound, the all-pairs
enumerator emits the triple `(seed_j, seed_i, d)` — the later seed first,
the earlier seed second — and it emits the payload pair exactly once over
both orientations. -/
theorem C1_completeness (t : ZipEl) (m : Int) (i j : Nat) (hwf : wf t = true)
    (hm : 0 ≤ m) (hnd : (seedsOf t).Nodup) (hij : i < j)
    (hj : j < (seedsOf t).length) (hd : seedDist t i j ≤ m) :
    ((seedsOf t).getD j 0, (seedsOf t).getD i 0, seedDist t i j) ∈
        zip_element_pairs_iterator t m ∧
    (zip_element_pairs_iterator t m).countP
      (fun tr =>
        decide ((tr.1 = (seedsOf t).getD j 0 ∧ tr.2.1 = (seedsOf t).getD i 0) ∨
          (tr.1 = (seedsOf t).getD i 0 ∧ tr.2.1 = (seedsOf t).getD j 0))) = 1 := by
  have hi : i < (seedsOf t).length := by omega
  have hjL : j < (zip_element_left_to_right_iterator t).length := by
    rw [ltr_length]; exact hj
  have hjS : j < (ltrSem t).length := by rw [ltrSem_length]; exact hj
  have hs1 : (seedsOf t).getD j 0 = (seedsOf t).get ⟨j, hj⟩ :=
    List.getD_eq_getElem _ _ hj
  have hs2 : (seedsOf t).getD i 0 = (seedsOf t).get ⟨i, hi⟩ :=
    List.getD_eq_getElem _ _ hi
  have hne : (seedsOf t).getD j 0 ≠ (seedsOf t).getD i 0 := by
    rw [hs1, hs2]
    intro hcon
    have := congrArg Fin.val ((List.Nodup.get_inj_iff hnd).1 hcon)
    simp only at this
    omega
  have hprecfst := ltrSem_prec_fst t j hjS
  have hpreclen : (((ltrSem t).get ⟨j, hjS⟩).2.1).length = j := by
    have h2 := congrArg List.length hprecfst
    simp only [List.length_map, List.length_reverse, List.length_take] at h2
    omega
  have hbd : j - 1 - i < (((ltrSem t).get ⟨j, hjS⟩).2.1).length := by
    rw [hpreclen]; omega
  have hfst1 : ((((ltrSem t).get ⟨j, hjS⟩).2.1).getD (j - 1 - i) (0, 0)).1 =
      (seedsOf t).getD i 0 := by
    rw [← getD_map_fst hbd, hprecfst,
      getD_reverse_take (seedsOf t) 0 i j hij (le_of_lt hj)]
  have hsd : seedDist t i j =
      ((((ltrSem t).get ⟨j, hjS⟩).2.1).getD (j - 1 - i) (0, 0)).2 := by
    rw [seedDist, List.getD_eq_getElem _ _ hjS]
    rfl
  have hpair : (((ltrSem t).get ⟨j, hjS⟩).2.1).getD (j - 1 - i) (0, 0) =
      ((seedsOf t).getD i 0, seedDist t i j) :=
    Prod.ext hfst1 hsd.symm
  have hmem' : ((seedsOf t).getD i 0, seedDist t i j) ∈
      ((ltrSem t).get ⟨j, hjS⟩).2.1 := by
    rw [← hpair]; exact getD_mem_of_lt hbd (0, 0)
  have hnd' : ((((ltrSem t).get ⟨j, hjS⟩).2.1).map Prod.fst).Nodup := by
    rw [hprecfst]
    exact List.nodup_reverse.2 (List.Sublist.nodup (List.take_sublist j _) hnd)
  have hreach := reach_eq_keepLe t hwf m hm j hjL hjS
  have hp1j : ((zip_element_left_to_right_iterator t).get ⟨j, hjL⟩).1 =
      (seedsOf t).getD j 0 := by
    rw [hs1]; exact ltr_get_fst t j hjL
  have hsplit : zip_element_left_to_right_iterator t =
      (zip_element_left_to_right_iterator t).take j ++
        (zip_element_left_to_right_iterator t).get ⟨j, hjL⟩ ::
          (zip_element_left_to_right_iterator t).drop (j + 1) := by
    conv_lhs => rw [← List.take_append_drop j (zip_element_left_to_right_iterator t)]
    congr 1
    rw [List.drop_eq_getElem_cons hjL]
    rfl
  have hBcount : (pairsOf m
      ((zip_element_left_to_right_iterator t).get ⟨j, hjL⟩)).countP
      (fun tr =>
        decide ((tr.1 = (seedsOf t).getD j 0 ∧ tr.2.1 = (seedsOf t).getD i 0) ∨
          (tr.1 = (seedsOf t).getD i 0 ∧ tr.2.1 = (seedsOf t).getD j 0))) = 1 := by
    rw [pairsOf, List.countP_map, hreach]
    refine Eq.trans (List.countP_congr ?_) (countP_keepLe_fst_one hnd' hmem' hd)
    intro x hx
    simp only [Function.comp_apply, decide_eq_true_iff]
    constructor
    · rintro (⟨-, hb⟩ | ⟨ha, -⟩)
      · exact hb
      · exact absurd (hp1j.symm.trans ha) hne
    · intro hb
      exact Or.inl ⟨hp1j, hb⟩
  have hAcount : (((zip_element_left_to_right_iterator t).take j).flatMap
      (pairsOf m)).countP
      (fun tr =>
        decide ((tr.1 = (seedsOf t).getD j 0 ∧ tr.2.1 = (seedsOf t).getD i 0) ∨
          (tr.1 = (seedsOf t).getD i 0 ∧ tr.2.1 = (seedsOf t).getD j 0))) = 0 := by
    refine List.countP_eq_zero.2 ?_
    intro tr htr
    rcases List.mem_flatMap.1 htr with ⟨p, hp, hin⟩
    rcases List.getElem_of_mem hp with ⟨k, hk, hpk⟩
    have hkL : k < (zip_element_left_to_right_iterator t).length := by
      simp only [List.length_take] at hk; omega
    have hkj : k ≠ j := by simp only [List.length_take] at hk; omega
    have hpk2 : (zip_element_left_to_right_iterator t).get ⟨k, hkL⟩ = p := by
      rw [← hpk]; exact (List.getElem_take ..).symm
    refine List.countP_eq_zero.1
      (pairsOf_countP_zero t m hwf hnd i j hij hj k hkL hkj) tr ?_
    rw [hpk2]; exact hin
  have hCcount : (((zip_element_left_to_right_iterator t).drop (j + 1)).flatMap
      (pairsOf m)).countP
      (fun tr =>
        decide ((tr.1 = (seedsOf t).getD j 0 ∧ tr.2.1 = (seedsOf t).getD i 0) ∨
          (tr.1 = (seedsOf t).getD i 0 ∧ tr.2.1 = (seedsOf t).getD j 0))) = 0 := by
    refine List.countP_eq_zero.2 ?_
    intro tr htr
    rcases List.mem_flatMap.1 htr with ⟨p, hp, hin⟩
    rcases List.getElem_of_mem hp with ⟨k, hk, hpk⟩
    have hkL : j + 1 + k < (zip_element_left_to_right_iterator t).length := by
      simp only [List.length_drop] at hk; omega
    have hkj : j + 1 + k ≠ j := by omega
    have hpk2 : (zip_element_left_to_right_iterator t).get ⟨j + 1 + k, hkL⟩ = p := by
      rw [← hpk]; exact (List.getElem_drop ..).symm
    refine List.countP_eq_zero.1
      (pairsOf_countP_zero t m hwf hnd i j hij hj (j + 1 + k) hkL hkj) tr ?_
    rw [hpk2]; exact hin
  constructor
  · rw [pairs_eq_flatMap]
    refine List.mem_flatMap.2
      ⟨(zip_element_left_to_right_iterator t).get ⟨j, hjL⟩,
        List.get_mem _ _ hjL, ?_⟩
    rw [pairsOf]
    refine List.mem_map.2 ⟨((seedsOf t).getD i 0, seedDist t i j), ?_, ?_⟩
    · rw [hreach]
      exact mem_keepLe.2 ⟨hmem', hd⟩
    · simp only
      rw [hp1j]
  · rw [pairs_eq_flatMap]
    conv_lhs => rw [hsplit]
    rw [List.flatMap_append, List.flatMap_cons, List.countP_append, List.countP_append,
      hAcount, hBcount, hCcount]

/-- Witness for C1 on the two-seed chain `[s0, 2, s1]` at bound 5. -/
theorem C1_completeness_witness :
    (wf (ZipEl.chain (ZipEl.seed 0) [(2, ZipEl.seed 1)]) = true ∧ (0 : Int) ≤ 5 ∧
      (seedsOf (ZipEl.chain (ZipEl.seed 0) [(2, ZipEl.seed 1)])).Nodup ∧ 0 < 1 ∧
      1 < (seedsOf (ZipEl.chain (ZipEl.seed 0) [(2, ZipEl.seed 1)])).length ∧
      seedDist (ZipEl.chain (ZipEl.seed 0) [(2, ZipEl.seed 1)]) 0 1 ≤ 5) ∧
    (((seedsOf (ZipEl.chain (ZipEl.seed 0) [(2, ZipEl.seed 1)])).getD 1 0,
        (seedsOf (ZipEl.chain (ZipEl.seed 0) [(2, ZipEl.seed 1)])).getD 0 0,
        seedDist (ZipEl.chain (ZipEl.seed 0) [(2, ZipEl.seed 1)]) 0 1) ∈
          zip_element_pairs_iterator (ZipEl.chain (ZipEl.seed 0) [(2, ZipEl.seed 1)]) 5 ∧
      (zip_element_pairs_iterator
          (ZipEl.chain (ZipEl.seed 0) [(2, ZipEl.seed 1)]) 5).countP
        (fun tr => decide
          ((tr.1 = (seedsOf (ZipEl.chain (ZipEl.seed 0) [(2, ZipEl.seed 1)])).getD 1 0 ∧
            tr.2.1 =
              (seedsOf (ZipEl.chain (ZipEl.seed 0) [(2, ZipEl.seed 1)])).getD 0 0) ∨
           (tr.1 = (seedsOf (ZipEl.chain (ZipEl.seed 0) [(2, ZipEl.seed 1)])).getD 0 0 ∧
            tr.2.1 =
              (seedsOf (ZipEl.chain (ZipEl.seed 0) [(2, ZipEl.seed 1)])).getD 1 0))) =
        1) := by
  have hd : seedDist (ZipEl.chain (ZipEl.seed 0) [(2, ZipEl.seed 1)]) 0 1 ≤ 5 := by
    have hsem : ltrSem (ZipEl.chain (ZipEl.seed 0) [(2, ZipEl.seed 1)]) =
        [(0, [], 0), (1, [(0, 2)], 2)] := by
      simp [ltrSem, ltrSemChainGo, distsToRight, dtrChain, crossDist, shiftD]
    rw [seedDist, hsem]
    decide
  refine ⟨⟨by decide, by decide, by decide, by decide, by decide, hd⟩, ?_⟩
  exact C1_completeness (ZipEl.chain (ZipEl.seed 0) [(2, ZipEl.seed 1)]) 5 0 1
    (by decide) (by decide) (by decide) (by decide) (by decide) hd
